import Mathlib

/-!
Verification of the model-invocation and prediction pipeline of the
UI-TARS desktop agent. The definitions below are shallow embeddings of
the TypeScript sources:

  * `packages/ui-tars/sdk/src/utils.ts` — box parsing, conversation
    formatting, image budget enforcement;
  * `packages/ui-tars/sdk/src/Model.ts` — the `UITarsModel` class,
    its Gemini compatibility repair, request building, the stateful
    Responses-API step and the `invoke` wrapper;
  * `apps/ui-tars/src/main/ipcRoutes/setting.ts` and the Gemini URL
    helpers — the Responses-API support probe.

JavaScript numbers are modelled as rationals (`ℚ`), `NaN` as `none`,
strings as Lean `String` processed through their character lists, and
network effects as explicit oracles (the response id returned by each
upstream call is an input to the model).
-/

namespace UITars

/-! ### JavaScript string primitives -/

/-- Whitespace as recognised by the JavaScript trim operation
(space, tab, newline, carriage return, vertical tab, form feed). -/
def isJsWhitespace (c : Char) : Bool :=
  c = ' ' || c = '\t' || c = '\n' || c = '\r' || c = Char.ofNat 11 || c = Char.ofNat 12

/-- Drop leading JavaScript whitespace from a character list. -/
def dropLeadingWs : List Char → List Char
  | [] => []
  | c :: cs => if isJsWhitespace c then dropLeadingWs cs else c :: cs

/-- The JavaScript string trim operation on character lists. -/
def trimChars (l : List Char) : List Char :=
  (dropLeadingWs ((dropLeadingWs l.reverse).reverse))

/-- The JavaScript string trim operation. -/
def strTrim (s : String) : String := ⟨trimChars s.data⟩

/-- Split a character list at every occurrence of a single character,
as the JavaScript split with a one-character separator does. -/
def splitOnChar (sep : Char) : List Char → List (List Char)
  | [] => [[]]
  | c :: cs =>
    let rest := splitOnChar sep cs
    if c = sep then [] :: rest
    else match rest with
      | [] => [[c]]
      | r :: rs => (c :: r) :: rs

/-- Remove the first occurrence of a character, modelling the
JavaScript replace of a one-character pattern with the empty string. -/
def removeFirstChar (c : Char) : List Char → List Char
  | [] => []
  | d :: ds => if d = c then ds else d :: removeFirstChar c ds

/-- Whether the first list is a contiguous prefix of the second. -/
def charsPre : List Char → List Char → Bool
  | [], _ => true
  | _ :: _, [] => false
  | a :: as, b :: bs => a = b && charsPre as bs

/-- Whether the first list occurs contiguously inside the second,
modelling the JavaScript substring test. -/
def charsContains (needle : List Char) : List Char → Bool
  | [] => charsPre needle []
  | c :: cs => charsPre needle (c :: cs) || charsContains needle cs

/-- JavaScript substring containment on strings. -/
def strContains (s needle : String) : Bool := charsContains needle.data s.data

/-- JavaScript prefix test on strings. -/
def strStartsWith (s pre : String) : Bool := charsPre pre.data s.data

/-- JavaScript suffix test on strings. -/
def strEndsWith (s suf : String) : Bool := charsPre suf.data.reverse s.data.reverse

/-- The first `n` characters of a string, as the JavaScript slice. -/
def strTake (s : String) (n : ℕ) : String := ⟨s.data.take n⟩

/-- Lower-casing of a string, for the case-insensitive model-name tests. -/
def strLower (s : String) : String := ⟨s.data.map Char.toLower⟩

/-! ### JavaScript number parsing (`parseFloat`)

`parseFloat` reads an optional sign, then a decimal literal, ignoring
any trailing garbage; it returns `NaN` (modelled as `none`) when no
digit can be read. Exponent suffixes do not occur in box strings and
are not modelled. -/

/-- Read a maximal run of decimal digits, returning their value,
their count and the rest of the input. -/
def readDigits : List Char → ℕ → ℕ → ℕ × ℕ × List Char
  | [], acc, n => (acc, n, [])
  | c :: cs, acc, n =>
    if c.isDigit then readDigits cs (10 * acc + (c.toNat - '0'.toNat)) (n + 1)
    else (acc, n, c :: cs)

/-- The JavaScript parseFloat on a character list, with `NaN` as `none`. -/
def jsParseFloat (l : List Char) : Option ℚ :=
  let (sign, rest) :=
    match l with
    | '-' :: cs => ((-1 : ℚ), cs)
    | '+' :: cs => ((1 : ℚ), cs)
    | cs => ((1 : ℚ), cs)
  let (intPart, intLen, rest2) := readDigits rest 0 0
  let (fracPart, fracLen, _) :=
    match rest2 with
    | '.' :: cs => readDigits cs 0 0
    | _ => (0, 0, rest2)
  if intLen = 0 ∧ fracLen = 0 then none
  else some (sign * ((intPart : ℚ) + (fracPart : ℚ) / (10 : ℚ) ^ fracLen))

/-- JavaScript rounding: round half toward positive infinity. -/
def jsRound (q : ℚ) : ℤ := ⌊q + 1 / 2⌋

/-! ### Coordinate/Box parser (`parseBoxToScreenCoords`, utils.ts) -/

/-- The coordinate list extracted from a box string: strip the first
opening and closing square bracket, split on commas, trim and
parseFloat each piece.  A failed parse is `none` (`NaN`). -/
def parseBoxCoords (boxStr : String) : List (Option ℚ) :=
  ((splitOnChar ',' (removeFirstChar ']' (removeFirstChar '[' boxStr.data))).map
    (fun w => jsParseFloat (trimChars w)))

/-- One axis of the result: the midpoint of the two coordinates,
scaled by the screen dimension and the factor, rounded, then divided
by the factor again. `NaN` operands give `NaN` (`none`). -/
def boxAxis (a b : Option ℚ) (dim factor : ℚ) : Option ℚ :=
  match a, b with
  | some a, some b => some ((jsRound ((a + b) / 2 * dim * factor) : ℚ) / factor)
  | _, _ => none

/-- `parseBoxToScreenCoords` from utils.ts.  An empty (or missing) box
string yields `(null, null)`; otherwise the string is parsed into up
to four coordinates; a missing third or fourth coordinate defaults to
the first or second (the degenerate `[x,y]` form). -/
def parseBoxToScreenCoords (boxStr : String) (screenWidth screenHeight : ℚ)
    (factors : ℚ × ℚ) : Option ℚ × Option ℚ :=
  if boxStr = "" then (none, none)
  else
    let coords := parseBoxCoords boxStr
    let x1 : Option ℚ := (coords.get? 0).getD none
    let y1 : Option ℚ := (coords.get? 1).getD none
    let x2 : Option ℚ := match coords.get? 2 with | some v => v | none => x1
    let y2 : Option ℚ := match coords.get? 3 with | some v => v | none => y1
    (boxAxis x1 x2 screenWidth factors.1, boxAxis y1 y2 screenHeight factors.2)

/-- Specification-side formula for one axis, written from the amended
claim: the midpoint scaled by the dimension and the factor, rounded
half-up, divided by the factor. -/
def roundedMidpoint (a b dim factor : ℚ) : ℚ :=
  (jsRound ((a + b) / 2 * dim * factor) : ℚ) / factor

/-! ### Image budget enforcement (`processVlmParams`, utils.ts) -/

/-- The image placeholder sentinel from the shared constants package. -/
def IMAGE_PLACEHOLDER : String := "<image>"

/-- A conversation turn, as in the shared types: a speaker tag and a
text value. -/
structure Message where
  «from» : String
  value : String
deriving DecidableEq

/-- The stateful filter inside `processVlmParams`: walk the
conversation once, removing a placeholder turn whenever the counter is
still positive. -/
def removeImagePlaceholders : ℕ → List Message → List Message
  | _, [] => []
  | 0, convo :: rest => convo :: removeImagePlaceholders 0 rest
  | n + 1, convo :: rest =>
    if convo.value = IMAGE_PLACEHOLDER then removeImagePlaceholders n rest
    else convo :: removeImagePlaceholders (n + 1) rest

/-- `processVlmParams` from utils.ts: when more images are available
than the configured maximum, drop the oldest images and the same
number of oldest image-placeholder turns. -/
def processVlmParams (conversations : List Message) (images : List String)
    (maxImageLength : ℕ) : List String × List Message :=
  if images.length > maxImageLength then
    let excessCount := images.length - maxImageLength
    (images.drop excessCount, removeImagePlaceholders excessCount conversations)
  else (images, conversations)

/-- Specification-side operation: delete the single oldest
image-placeholder turn (written from the claim, for comparison with
the stateful filter of the source). -/
def eraseOldestPlaceholder : List Message → List Message
  | [] => []
  | convo :: rest =>
    if convo.value = IMAGE_PLACEHOLDER then rest
    else convo :: eraseOldestPlaceholder rest

/-- A counter of zero keeps the whole conversation. -/
theorem removeImagePlaceholders_zero (l : List Message) :
    removeImagePlaceholders 0 l = l := by
  induction l with
  | nil => rfl
  | cons c rest ih => simp [removeImagePlaceholders, ih]

/-- Peeling one unit off the counter is exactly one application of the
oldest-placeholder deletion. -/
theorem removeImagePlaceholders_succ (n : ℕ) (l : List Message) :
    removeImagePlaceholders (n + 1) l =
      removeImagePlaceholders n (eraseOldestPlaceholder l) := by
  induction l generalizing n with
  | nil => simp [removeImagePlaceholders, eraseOldestPlaceholder]
  | cons c rest ih =>
    by_cases h : c.value = IMAGE_PLACEHOLDER
    · simp [removeImagePlaceholders, eraseOldestPlaceholder, h]
    · cases n with
      | zero =>
        simp [removeImagePlaceholders, eraseOldestPlaceholder, h,
          removeImagePlaceholders_zero, ih]
      | succ m =>
        simp [removeImagePlaceholders, eraseOldestPlaceholder, h, ih]

/-- The stateful filter of the source equals iterating the
oldest-placeholder deletion. -/
theorem removeImagePlaceholders_eq_iterate (n : ℕ) (l : List Message) :
    removeImagePlaceholders n l = eraseOldestPlaceholder^[n] l := by
  induction n generalizing l with
  | zero => simp [removeImagePlaceholders_zero]
  | succ m ih =>
    rw [removeImagePlaceholders_succ, ih, Function.iterate_succ_apply]

/-- The filter only deletes turns: the output is a sublist of the
input, so the surviving turns are unchanged and in order. -/
theorem removeImagePlaceholders_sublist (n : ℕ) (l : List Message) :
    (removeImagePlaceholders n l).Sublist l := by
  induction l generalizing n with
  | nil => simp [removeImagePlaceholders]
  | cons c rest ih =>
    cases n with
    | zero => simp [removeImagePlaceholders_zero]
    | succ m =>
      by_cases h : c.value = IMAGE_PLACEHOLDER
      · simp only [removeImagePlaceholders, h, if_pos]
        exact (ih m).trans (List.sublist_cons_self c rest)
      · simp only [removeImagePlaceholders, h, if_neg, not_false_iff]
        exact (ih (m + 1)).cons₂ c

/-- When the counter does not exceed the number of placeholder turns,
exactly `n` turns are deleted. -/
theorem removeImagePlaceholders_length (n : ℕ) (l : List Message)
    (h : n ≤ l.countP (fun c => c.value = IMAGE_PLACEHOLDER)) :
    (removeImagePlaceholders n l).length + n = l.length := by
  induction l generalizing n with
  | nil =>
    simp only [List.countP_nil, Nat.le_zero] at h
    subst h
    simp [removeImagePlaceholders]
  | cons c rest ih =>
    cases n with
    | zero => simp [removeImagePlaceholders_zero]
    | succ m =>
      by_cases hc : c.value = IMAGE_PLACEHOLDER
      · have hrest : m ≤ rest.countP (fun c => c.value = IMAGE_PLACEHOLDER) := by
          have := h
          rw [List.countP_cons] at this
          simpa [hc] using this
        have := ih m hrest
        simp only [removeImagePlaceholders, hc, if_pos, List.length_cons]
        omega
      · have hrest : m + 1 ≤ rest.countP (fun c => c.value = IMAGE_PLACEHOLDER) := by
          have := h
          rw [List.countP_cons] at this
          simpa [hc] using this
        have := ih (m + 1) hrest
        simp only [removeImagePlaceholders, hc, if_neg, not_false_iff, List.length_cons]
        omega

/-- C1 counterexample: the parser does not return the exact scaled
midpoint.  For the box `[0.3,0.3,0.3,0.3]` on a 1 by 1 screen with
factors `[1,1]` the exact scaled midpoint is `0.3` on each axis, while
`parseBoxToScreenCoords` rounds and returns `(0, 0)`. -/
theorem parseBoxToScreenCoords_midpoint_cex :
    parseBoxToScreenCoords "[0.3,0.3,0.3,0.3]" 1 1 (1, 1) = (some 0, some 0) ∧
    ((3 / 10 : ℚ) + 3 / 10) / 2 * 1 * 1 ≠ (0 : ℚ) := by
  constructor
  · simp [parseBoxToScreenCoords, parseBoxCoords, splitOnChar, removeFirstChar, trimChars,
      dropLeadingWs, jsParseFloat, readDigits, boxAxis, jsRound, isJsWhitespace, String.data]
    norm_num
  · norm_num

/-- C1 (amended): for every box string parsing to four coordinates
`[x1,y1,x2,y2]` (or to a degenerate two-coordinate point `[x,y]`),
`parseBoxToScreenCoords` returns per axis the midpoint of the two
points scaled by the screen dimension and the factor, rounded half-up
at the granularity of the factor; every empty or missing box string
yields `(null, null)`; and the concrete instance
`[0.1,0.1,0.1,0.1]` at 1000 by 800 with factors `[1,1]` yields
`(100, 80)`. -/
theorem parseBoxToScreenCoords_rounded_midpoint :
    (∀ (s : String) (sw sh wf hf x1 y1 x2 y2 : ℚ), s ≠ "" →
      parseBoxCoords s = [some x1, some y1, some x2, some y2] →
      parseBoxToScreenCoords s sw sh (wf, hf) =
        (some (roundedMidpoint x1 x2 sw wf), some (roundedMidpoint y1 y2 sh hf))) ∧
    (∀ (s : String) (sw sh wf hf x y : ℚ), s ≠ "" →
      parseBoxCoords s = [some x, some y] →
      parseBoxToScreenCoords s sw sh (wf, hf) =
        (some (roundedMidpoint x x sw wf), some (roundedMidpoint y y sh hf))) ∧
    (∀ (sw sh : ℚ) (f : ℚ × ℚ), parseBoxToScreenCoords "" sw sh f = (none, none)) ∧
    parseBoxToScreenCoords "[0.1,0.1,0.1,0.1]" 1000 800 (1, 1) = (some 100, some 80) := by
  refine ⟨?_, ?_, ?_, ?_⟩
  · intro s sw sh wf hf x1 y1 x2 y2 hs hc
    simp [parseBoxToScreenCoords, hs, hc, boxAxis, roundedMidpoint]
  · intro s sw sh wf hf x y hs hc
    simp [parseBoxToScreenCoords, hs, hc, boxAxis, roundedMidpoint]
  · intro sw sh f
    simp [parseBoxToScreenCoords]
  · simp [parseBoxToScreenCoords, parseBoxCoords, splitOnChar, removeFirstChar, trimChars,
      dropLeadingWs, jsParseFloat, readDigits, boxAxis, jsRound, isJsWhitespace, String.data]
    norm_num

/-- Witness for C1: the rounded-midpoint description evaluated on the
concrete box `[0.2,0.4,0.6,0.8]`. -/
theorem parseBoxToScreenCoords_rounded_midpoint_witness :
    parseBoxToScreenCoords "[0.2,0.4,0.6,0.8]" 10 20 (1, 1) =
      (some (roundedMidpoint (1 / 5) (3 / 5) 10 1),
       some (roundedMidpoint (2 / 5) (4 / 5) 20 1)) :=
  parseBoxToScreenCoords_rounded_midpoint.1 "[0.2,0.4,0.6,0.8]" 10 20 1 1
    (1 / 5) (2 / 5) (3 / 5) (4 / 5) (by decide)
    (by simp [parseBoxCoords, splitOnChar, removeFirstChar, trimChars, dropLeadingWs,
      jsParseFloat, readDigits, isJsWhitespace, String.data]; norm_num)

/-- C2: when the available images exceed the configured maximum (and
the conversation holds at least as many placeholder turns as the
excess), `processVlmParams` keeps exactly the most recent
`maxImageLength` images, deletes exactly the excess count of oldest
image-placeholder turns, and keeps every other turn unchanged and in
order (the output conversation is a sublist obtained by iterating the
oldest-placeholder deletion). -/
theorem processVlmParams_image_budget (conversations : List Message)
    (images : List String) (maxImageLength excess : ℕ)
    (hexcess : excess = images.length - maxImageLength)
    (hover : images.length > maxImageLength)
    (hcount : excess ≤ conversations.countP (fun c => c.value = IMAGE_PLACEHOLDER)) :
    (processVlmParams conversations images maxImageLength).1 = images.drop excess ∧
    (processVlmParams conversations images maxImageLength).1.length = maxImageLength ∧
    (processVlmParams conversations images maxImageLength).2 =
      eraseOldestPlaceholder^[excess] conversations ∧
    (processVlmParams conversations images maxImageLength).2.Sublist conversations ∧
    (processVlmParams conversations images maxImageLength).2.length + excess =
      conversations.length := by
  subst hexcess
  have hif : (images.length > maxImageLength) = True := by simp [hover]
  refine ⟨?_, ?_, ?_, ?_, ?_⟩
  · simp [processVlmParams, hif]
  · simp [processVlmParams, hif]
    omega
  · simp [processVlmParams, hif, removeImagePlaceholders_eq_iterate]
  · simp only [processVlmParams, hif, if_true, gt_iff_lt]
    exact removeImagePlaceholders_sublist _ _
  · simp only [processVlmParams, hif, if_true, gt_iff_lt]
    exact removeImagePlaceholders_length _ _ hcount

/-- Witness for C2: three turns, two of them image placeholders, two
images, maximum one: image A and one placeholder turn are dropped. -/
theorem processVlmParams_image_budget_witness :
    (processVlmParams [⟨"human", "<image>"⟩, ⟨"human", "hi"⟩, ⟨"human", "<image>"⟩]
      ["A", "B"] 1).1 = ["B"] ∧
    (processVlmParams [⟨"human", "<image>"⟩, ⟨"human", "hi"⟩, ⟨"human", "<image>"⟩]
      ["A", "B"] 1).2 = [⟨"human", "hi"⟩, ⟨"human", "<image>"⟩] := by
  have h := processVlmParams_image_budget
    [⟨"human", "<image>"⟩, ⟨"human", "hi"⟩, ⟨"human", "<image>"⟩]
    ["A", "B"] 1 1 (by decide) (by decide) (by decide)
  exact ⟨h.1.trans (by decide), h.2.2.1.trans (by decide)⟩

/-! ### Chat message data model (ChatCompletionMessageParam) -/

/-- One typed content part of a provider message. `imageUrl` is the
Chat-Completions image part, `inputImage` the Responses-API image part
produced by `convertToResponseApiInput`, `otherPart` stands for any
other part kind (dropped by the Gemini deep clean). -/
inductive ContentPart where
  | text : String → ContentPart
  | imageUrl : String → ContentPart
  | inputImage : String → ContentPart
  | otherPart : ContentPart
deriving DecidableEq

/-- Message content: a bare string, an array of typed parts, or the
JavaScript null/undefined content an assistant message may carry. -/
inductive MessageContent where
  | str : String → MessageContent
  | parts : List ContentPart → MessageContent
  | nullContent : MessageContent
deriving DecidableEq

/-- A provider chat message: a role tag and content. -/
structure ChatMessage where
  role : String
  content : MessageContent
deriving DecidableEq

/-! ### The `invoke` result handling (Model.ts, `invoke`) -/

/-- What `invokeModelProvider` resolves with on success. -/
structure ProviderResult where
  prediction : String
  costTime : ℕ
  costTokens : ℕ
  responseId : Option String
deriving DecidableEq

/-- The two ways `invoke` can throw: a transport/upstream error
rethrown unchanged from the provider call, or the dedicated error
built when the prediction text is empty (the source sets its name to
the string "vlm response error" and its stack to the serialized
result). -/
inductive InvokeError where
  | upstream : String → InvokeError
  | vlmResponseError : ProviderResult → InvokeError
deriving DecidableEq

/-- The value `invoke` returns to the caller.  The action type is a
parameter because the Action Parser is an external dependency.  On the
parse-error recovery path the source returns only the prediction, the
empty action list and the response id, so cost fields are optional. -/
structure InvokeOutput (α : Type) where
  prediction : String
  parsedPredictions : List α
  costTime : Option ℕ
  costTokens : Option ℕ
  responseId : Option String
deriving DecidableEq

/-- The tail of `invoke` (Model.ts lines 569-624): rethrow provider
errors; throw the dedicated error on an empty prediction; run the
external action parser and, when it throws (modelled as `none`),
recover with an empty action list instead of propagating. -/
def invokeResult {α : Type} (providerResult : Except String ProviderResult)
    (parse : String → Option (List α)) : Except InvokeError (InvokeOutput α) :=
  match providerResult with
  | .error e => .error (.upstream e)
  | .ok r =>
    if r.prediction = "" then .error (.vlmResponseError r)
    else
      match parse r.prediction with
      | some parsed =>
        .ok ⟨r.prediction, parsed, some r.costTime, some r.costTokens, r.responseId⟩
      | none => .ok ⟨r.prediction, [], none, none, r.responseId⟩

/-! ### The Responses-API support probe (setting.ts) -/

/-- `isGeminiBaseUrl` from the main-process agent utils. -/
def isGeminiBaseUrl (baseUrl : String) : Bool :=
  strContains baseUrl "generativelanguage.googleapis.com" ||
  strContains baseUrl "ai.google.dev"

/-- The fields of the probe response that the check inspects. -/
structure ResponsesProbeResult where
  id : Option String
  previous_response_id : Option String
deriving DecidableEq

/-- JavaScript truthiness of an optional string: absent and empty are
falsy. -/
def jsTruthyOptStr : Option String → Bool
  | none => false
  | some s => s ≠ ""

/-- Outcome of the support check, recording whether an upstream
request was attempted at all. -/
structure ProbeOutcome where
  attemptedRequest : Bool
  result : Bool
deriving DecidableEq

/-- `checkVLMResponseApiSupport` from setting.ts: Gemini base URLs are
rejected before any request; a throwing probe yields false; otherwise
the truthiness of the returned identifiers decides. -/
def checkVLMResponseApiSupport (baseUrl : String)
    (probe : Except String ResponsesProbeResult) : ProbeOutcome :=
  if isGeminiBaseUrl baseUrl then ⟨false, false⟩
  else
    match probe with
    | .error _ => ⟨true, false⟩
    | .ok r => ⟨true, jsTruthyOptStr r.id || jsTruthyOptStr r.previous_response_id⟩

/-! ### Model configuration and request building (Model.ts) -/

/-- The model configuration, as destructured at the top of
`invokeModelProvider`. -/
structure UITarsModelConfig where
  baseURL : Option String
  apiKey : Option String
  model : Option String
  max_tokens : Option ℤ
  temperature : Option ℚ
  top_p : Option ℚ
  useResponsesApi : Bool

/-- The `isGemini` getter: the base URL contains a Google endpoint or
the lower-cased model name contains "gemini". -/
def isGemini (cfg : UITarsModelConfig) : Bool :=
  (match cfg.baseURL with
   | some u => strContains u "generativelanguage.googleapis.com" ||
       strContains u "ai.google.dev"
   | none => false) ||
  strContains (strLower (cfg.model.getD "")) "gemini"

/-- Strip one leading and one trailing backtick character, as the
global edge-anchored replace in the source does. -/
def stripEdgeBackticks (s : String) : String :=
  let l := s.data
  let l1 := match l with
    | c :: rest => if c = Char.ofNat 96 then rest else l
    | [] => []
  let l2 := match l1.reverse with
    | c :: rest => if c = Char.ofNat 96 then rest.reverse else l1
    | [] => []
  ⟨l2⟩

/-- Model-name normalization (Model.ts lines 131-136): trim, strip
wrapping backticks, trim again; for Gemini also strip a leading
"models/" prefix. -/
def normalizedModelName (cfg : UITarsModelConfig) : String :=
  let m := strTrim (stripEdgeBackticks (strTrim (cfg.model.getD "unknown")))
  if isGemini cfg then
    if strStartsWith m "models/" then ⟨m.data.drop 7⟩ else m
  else m

/-- The effective output-token ceiling (Model.ts lines 288-295):
default by model family, clamped to 8192 for Gemini.  The
`uiTarsVersion == V1_5` comparison is passed in as a boolean. -/
def effectiveMaxTokens (cfg : UITarsModelConfig) (isV15 : Bool) : ℤ :=
  let m := cfg.max_tokens.getD (if isV15 then 65535 else 1000)
  if isGemini cfg && decide (m > 8192) then 8192 else m

/-- The Chat-Completions request body assembled by
`invokeModelProvider` (lines 297-325).  `none` for an optional field
means the field is omitted from the request. -/
structure ChatCompletionRequest where
  model : String
  messages : List ChatMessage
  stream : Bool
  max_tokens : Option ℤ
  temperature : Option ℚ
  top_p : Option ℚ
  thinking : Option String
deriving DecidableEq

/-- Build the Chat-Completions request: max_tokens only when the
effective ceiling is positive; temperature and top_p defaulted for
non-Gemini targets and never set for Gemini; the DeepSeek thinking
flag from the model name. -/
def buildChatCompletionParams (cfg : UITarsModelConfig) (isV15 : Bool)
    (effectiveMessages : List ChatMessage) : ChatCompletionRequest :=
  let model := normalizedModelName cfg
  let eff := effectiveMaxTokens cfg isV15
  { model := model
    messages := effectiveMessages
    stream := false
    max_tokens := if eff > 0 then some eff else none
    temperature := if !isGemini cfg then some (cfg.temperature.getD 0) else none
    top_p := if !isGemini cfg then some (cfg.top_p.getD (7 / 10)) else none
    thinking := if strContains (strLower model) "deepseek" then some "disabled" else none }

/-- The Responses-API request body assembled per input item
(Model.ts lines 402-420). -/
structure ResponseCreateRequest where
  input : List ChatMessage
  model : String
  temperature : Option ℚ
  top_p : Option ℚ
  stream : Bool
  max_output_tokens : Option ℤ
  previous_response_id : Option String
  thinking : Option String
deriving DecidableEq

/-- Build the Responses-API request: the configured temperature, top_p
and max_tokens are passed through unchanged, and the previous response
id is chained only when truthy. -/
def buildResponseParams (cfg : UITarsModelConfig) (input : ChatMessage)
    (responseId : Option String) : ResponseCreateRequest :=
  let model := normalizedModelName cfg
  { input := [input]
    model := model
    temperature := cfg.temperature
    top_p := cfg.top_p
    stream := false
    max_output_tokens := cfg.max_tokens
    previous_response_id := if jsTruthyOptStr responseId then responseId else none
    thinking := if strContains (strLower model) "deepseek" then some "disabled" else none }

/-! ### Log redaction (Model.ts lines 329-345, 466, 563-566)

A `JSON.stringify` with the truncating replacer is modelled by the
list of string values the serialization visits, each passed through
the replacer; the Gemini debug logs serialize without the replacer. -/

/-- The replacer of the request-payload log: strings that start with
`data:image/` are cut to their first 50 characters plus a marker. -/
def truncateImageValue (v : String) : String :=
  if strStartsWith v "data:image/" then strTake v 50 ++ "...[truncated]" else v

/-- The string values of one content part. -/
def partStringValues : ContentPart → List String
  | .text t => [t]
  | .imageUrl u => [u]
  | .inputImage u => [u]
  | .otherPart => []

/-- The string values of a message content. -/
def contentStringValues : MessageContent → List String
  | .str s => [s]
  | .parts ps => (ps.map partStringValues).flatten
  | .nullContent => []

/-- All string values a serialization of the message list visits. -/
def messagesStringValues (msgs : List ChatMessage) : List String :=
  (msgs.map (fun m => m.role :: contentStringValues m.content)).flatten

/-- The values of the standard request-payload log (replacer
applied). -/
def requestPayloadLogValues (msgs : List ChatMessage) : List String :=
  (messagesStringValues msgs).map truncateImageValue

/-- The values of the Gemini debug logs (no replacer). -/
def geminiDebugLogValues (msgs : List ChatMessage) : List String :=
  messagesStringValues msgs

/-- The log calls of the Chat-Completions path, in order: the standard
redacted payload log, then — for Gemini — the unredacted debug log. -/
def chatPathLogValues (gemini : Bool) (msgs : List ChatMessage) : List (List String) :=
  [requestPayloadLogValues msgs] ++ (if gemini then [geminiDebugLogValues msgs] else [])

/-- C5: when the upstream call succeeds but the prediction text is
empty, `invoke` throws the dedicated empty-prediction error — a kind
distinct by construction from a rethrown transport error — and never
returns a result, so the caller receives no parsed actions. -/
theorem invoke_empty_prediction_error {α : Type} (r : ProviderResult)
    (parse : String → Option (List α)) (h : r.prediction = "") :
    invokeResult (.ok r) parse = .error (.vlmResponseError r) ∧
    (∀ e : String, InvokeError.vlmResponseError r ≠ InvokeError.upstream e) ∧
    (∀ out : InvokeOutput α, invokeResult (.ok r) parse ≠ .ok out) :=
  ⟨by simp [invokeResult, h], fun e => by simp, fun out => by simp [invokeResult, h]⟩

/-- Witness for C5: a provider result with empty prediction text. -/
theorem invoke_empty_prediction_error_witness :
    invokeResult (α := String) (.ok ⟨"", 17, 5, some "id1"⟩) (fun _ => some []) =
      .error (.vlmResponseError ⟨"", 17, 5, some "id1"⟩) :=
  (invoke_empty_prediction_error ⟨"", 17, 5, some "id1"⟩ (fun _ => some []) rfl).1

/-- C6: when the prediction text is non-empty but the action parser
throws, `invoke` does not propagate the error: it returns the raw
prediction with an empty parsed-actions list. -/
theorem invoke_parse_error_recovery {α : Type} (r : ProviderResult)
    (parse : String → Option (List α)) (hne : r.prediction ≠ "")
    (hp : parse r.prediction = none) :
    invokeResult (.ok r) parse = .ok ⟨r.prediction, [], none, none, r.responseId⟩ := by
  simp [invokeResult, hne, hp]

/-- Witness for C6: a parser that rejects every prediction. -/
theorem invoke_parse_error_recovery_witness :
    invokeResult (α := String) (.ok ⟨"Action: finished()", 3, 4, none⟩)
      (fun _ => none) = .ok ⟨"Action: finished()", [], none, none, none⟩ :=
  invoke_parse_error_recovery _ _ (by decide) rfl

/-- C10: `checkVLMResponseApiSupport` is total over its error cases:
a recognized Gemini base URL yields false with no upstream request
attempted; a throwing probe yields false instead of propagating; and
a true result can only come from a probe response whose id or
previous response id is a truthy identifier. -/
theorem checkVLMResponseApiSupport_total (baseUrl : String)
    (probe : Except String ResponsesProbeResult) :
    (isGeminiBaseUrl baseUrl = true →
      checkVLMResponseApiSupport baseUrl probe = ⟨false, false⟩) ∧
    (∀ e, probe = .error e → (checkVLMResponseApiSupport baseUrl probe).result = false) ∧
    ((checkVLMResponseApiSupport baseUrl probe).result = true →
      ∃ r, probe = .ok r ∧
        (jsTruthyOptStr r.id || jsTruthyOptStr r.previous_response_id) = true) := by
  refine ⟨fun hg => by simp [checkVLMResponseApiSupport, hg], ?_, ?_⟩
  · intro e he
    subst he
    by_cases hg : isGeminiBaseUrl baseUrl <;> simp [checkVLMResponseApiSupport, hg]
  · intro hres
    by_cases hg : isGeminiBaseUrl baseUrl
    · simp [checkVLMResponseApiSupport, hg] at hres
    · cases probe with
      | error e => simp [checkVLMResponseApiSupport, hg] at hres
      | ok r =>
        refine ⟨r, rfl, ?_⟩
        simpa [checkVLMResponseApiSupport, hg] using hres

/-- Witness for C10: the Gemini endpoint short-circuits, and a
throwing probe against a non-Gemini endpoint yields false. -/
theorem checkVLMResponseApiSupport_total_witness :
    checkVLMResponseApiSupport "https://generativelanguage.googleapis.com/v1beta/openai/"
      (.error "boom") = ⟨false, false⟩ ∧
    (checkVLMResponseApiSupport "https://api.openai.com/v1/" (.error "boom")).result = false :=
  ⟨(checkVLMResponseApiSupport_total _ _).1 (by decide),
   (checkVLMResponseApiSupport_total "https://api.openai.com/v1/" _).2.1 "boom" rfl⟩

/-- A Gemini configuration with every decoding parameter set,
exercised by the request-building results. -/
def geminiTestConfig : UITarsModelConfig :=
  { baseURL := some "https://generativelanguage.googleapis.com/v1beta/openai/"
    apiKey := some "k"
    model := some "gemini-2.5-flash"
    max_tokens := some 0
    temperature := some (1 / 2)
    top_p := some (9 / 10)
    useResponsesApi := true }

/-- C8 counterexample: on the Responses path the request for a
Gemini-targeted configuration does NOT omit temperature — the
configured value is passed through — and a zero max_tokens is sent as
a zero max_output_tokens rather than omitted. -/
theorem gemini_request_param_cex :
    isGemini geminiTestConfig = true ∧
    (buildResponseParams geminiTestConfig ⟨"user", .str "hi"⟩ none).temperature =
      some (1 / 2) ∧
    (buildResponseParams geminiTestConfig ⟨"user", .str "hi"⟩ none).temperature ≠ none ∧
    (buildResponseParams geminiTestConfig ⟨"user", .str "hi"⟩ none).max_output_tokens =
      some 0 :=
  ⟨by decide, rfl, by simp [buildResponseParams, geminiTestConfig], rfl⟩

/-- C8 (amended): on the Chat Completions path every Gemini-targeted
request omits temperature and top_p entirely and omits max_tokens
whenever the effective ceiling is zero or negative; on the Responses
path the configured temperature, top_p and max_tokens are passed
through unchanged (so they are omitted exactly when unset). -/
theorem gemini_param_omission (cfg : UITarsModelConfig) (isV15 : Bool)
    (msgs : List ChatMessage) (input : ChatMessage) (rid : Option String)
    (h : isGemini cfg = true) :
    (buildChatCompletionParams cfg isV15 msgs).temperature = none ∧
    (buildChatCompletionParams cfg isV15 msgs).top_p = none ∧
    (effectiveMaxTokens cfg isV15 ≤ 0 →
      (buildChatCompletionParams cfg isV15 msgs).max_tokens = none) ∧
    (buildResponseParams cfg input rid).temperature = cfg.temperature ∧
    (buildResponseParams cfg input rid).top_p = cfg.top_p ∧
    (buildResponseParams cfg input rid).max_output_tokens = cfg.max_tokens := by
  refine ⟨by simp [buildChatCompletionParams, h], by simp [buildChatCompletionParams, h],
    ?_, rfl, rfl, rfl⟩
  intro hle
  simp [buildChatCompletionParams, show ¬(effectiveMaxTokens cfg isV15 > 0) from by omega]

/-- Witness for C8: the Gemini test configuration with a zero token
ceiling produces a chat request with no temperature, top_p or
max_tokens. -/
theorem gemini_param_omission_witness :
    (buildChatCompletionParams geminiTestConfig false []).temperature = none ∧
    (buildChatCompletionParams geminiTestConfig false []).top_p = none ∧
    (buildChatCompletionParams geminiTestConfig false []).max_tokens = none :=
  have h := gemini_param_omission geminiTestConfig false [] ⟨"user", .str "x"⟩ none (by decide)
  ⟨h.1, h.2.1, h.2.2.1 (by decide)⟩

/-- C9 counterexample: the Gemini debug log is one of the log calls of
the Gemini Chat-Completions path and it receives the full 72-character
`data:image/` payload untruncated (a truncated value is at most 64
characters long). -/
theorem log_redaction_cex :
    geminiDebugLogValues
        [⟨"user", .parts [.imageUrl "data:image/png;base64,AAAAAAAAAAAAAAAAAAAAAAAAAAAAAAAAAAAAAAAAAAAAAAAAAA"]⟩] ∈
      chatPathLogValues true
        [⟨"user", .parts [.imageUrl "data:image/png;base64,AAAAAAAAAAAAAAAAAAAAAAAAAAAAAAAAAAAAAAAAAAAAAAAAAA"]⟩] ∧
    "data:image/png;base64,AAAAAAAAAAAAAAAAAAAAAAAAAAAAAAAAAAAAAAAAAAAAAAAAAA" ∈
      geminiDebugLogValues
        [⟨"user", .parts [.imageUrl "data:image/png;base64,AAAAAAAAAAAAAAAAAAAAAAAAAAAAAAAAAAAAAAAAAAAAAAAAAA"]⟩] ∧
    strStartsWith "data:image/png;base64,AAAAAAAAAAAAAAAAAAAAAAAAAAAAAAAAAAAAAAAAAAAAAAAAAA"
      "data:image/" = true ∧
    64 < ("data:image/png;base64,AAAAAAAAAAAAAAAAAAAAAAAAAAAAAAAAAAAAAAAAAAAAAAAAAA" : String).length := by
  decide

/-- C9 (amended): the standard request-payload log applies the
truncating replacer, so every `data:image/` string it receives is at
most 64 characters (a 50-character prefix plus the truncation
marker); the Gemini-specific debug logs receive the unredacted
serialization. -/
theorem request_payload_log_redaction (msgs : List ChatMessage) (w : String)
    (hw : w ∈ requestPayloadLogValues msgs)
    (himg : strStartsWith w "data:image/" = true) :
    w.length ≤ 64 := by
  obtain ⟨v, hv, rfl⟩ := List.mem_map.mp hw
  by_cases hs : strStartsWith v "data:image/"
  · simp only [truncateImageValue, hs, if_pos]
    rw [String.length_append]
    have h1 : (strTake v 50).length ≤ 50 := by
      show (v.data.take 50).length ≤ 50
      simp [List.length_take]
    have h2 : ("...[truncated]" : String).length = 14 := by decide
    omega
  · have hid : truncateImageValue v = v := by simp [truncateImageValue, hs]
    rw [hid] at himg
    exact absurd himg hs

/-- Witness for C9: the truncated rendering of a short image payload
stays within the 64-character bound. -/
theorem request_payload_log_redaction_witness :
    ("data:image/png;base64,BBBB...[truncated]" : String).length ≤ 64 :=
  request_payload_log_redaction
    [⟨"user", .parts [.imageUrl "data:image/png;base64,BBBB"]⟩] _ (by decide) (by decide)

/-! ### Gemini compatibility repair (Model.ts lines 144-268) -/

/-- Step 0: convert the system role to user, since some Gemini OpenAI
proxies do not support a system role. -/
def mapSystemToUser (msgs : List ChatMessage) : List ChatMessage :=
  msgs.map (fun m => { m with role := if m.role = "system" then "user" else m.role })

/-- The content filter of step 1 inside one message: keep every
non-image part, keep an image part only when no image has been kept
yet, threading the found flag in part order. -/
def filterImageParts (found : Bool) : List ContentPart → Bool × List ContentPart
  | [] => (found, [])
  | .imageUrl u :: rest =>
    if found then filterImageParts found rest
    else ((filterImageParts true rest).1, .imageUrl u :: (filterImageParts true rest).2)
  | .text t :: rest =>
    ((filterImageParts found rest).1, .text t :: (filterImageParts found rest).2)
  | .inputImage u :: rest =>
    ((filterImageParts found rest).1, .inputImage u :: (filterImageParts found rest).2)
  | .otherPart :: rest =>
    ((filterImageParts found rest).1, .otherPart :: (filterImageParts found rest).2)

/-- Step 1 walks the messages from the last to the first; this helper
processes the reversed message list, threading the found flag. -/
def keepLastImageAux (found : Bool) : List ChatMessage → Bool × List ChatMessage
  | [] => (found, [])
  | m :: rest =>
    match m.content with
    | .parts ps =>
      let (f1, ps2) := filterImageParts found ps
      let (f2, rest2) := keepLastImageAux f1 rest
      (f2, { m with content := .parts ps2 } :: rest2)
    | _ =>
      let (f, rest2) := keepLastImageAux found rest
      (f, m :: rest2)

/-- Step 1: ensure only the most recent image is sent. -/
def keepLastImage (msgs : List ChatMessage) : List ChatMessage :=
  ((keepLastImageAux false msgs.reverse).2).reverse

/-- A part surviving the deep clean of step 2: non-blank text, or an
image part (whose object is always truthy). Every other part kind is
dropped. -/
def keepPart : ContentPart → Bool
  | .text t => (strTrim t).length != 0
  | .imageUrl _ => true
  | _ => false

/-- The deep clean of one message content (step 2); `none` means the
whole message is skipped. -/
def cleanContent : MessageContent → Option MessageContent
  | .str s => if (strTrim s).length = 0 then none else some (.str (strTrim s))
  | .parts ps =>
    let ps2 := ps.filter keepPart
    if ps2 = [] then none else some (.parts ps2)
  | .nullContent => none

/-- Coerce message content to a parts array, as the merge branches do
with their array test and string fallback. -/
def toParts : MessageContent → List ContentPart
  | .parts ps => ps
  | .str s => [.text s]
  | .nullContent => [.text ""]

/-- Step 2: deep clean every message and merge consecutive same-role
messages.  The accumulator holds the output in reverse, so the most
recently pushed message is at its head. -/
def mergeSameRolesAux (acc : List ChatMessage) : List ChatMessage → List ChatMessage
  | [] => acc
  | m :: rest =>
    match cleanContent m.content with
    | none => mergeSameRolesAux acc rest
    | some c =>
      match acc with
      | lastMsg :: accRest =>
        if lastMsg.role = m.role then
          mergeSameRolesAux
            (⟨lastMsg.role, .parts (toParts lastMsg.content ++ toParts c)⟩ :: accRest) rest
        else mergeSameRolesAux (⟨m.role, c⟩ :: acc) rest
      | [] => mergeSameRolesAux [⟨m.role, c⟩] rest

/-- Step 2 entry point. -/
def mergeSameRoles (msgs : List ChatMessage) : List ChatMessage :=
  (mergeSameRolesAux [] msgs).reverse

/-- Step 3: enforce strictly alternating roles starting from an
expected user turn, injecting a synthetic user nudge where a user turn
is missing and merging into the previous user message where an
assistant turn is missing.  The accumulator holds the output in
reverse. -/
def ensureAlternatingAux (acc : List ChatMessage) (expectedRole : String) :
    List ChatMessage → List ChatMessage
  | [] => acc
  | m :: rest =>
    if m.role = expectedRole then
      ensureAlternatingAux (m :: acc)
        (if expectedRole = "user" then "assistant" else "user") rest
    else if expectedRole = "user" then
      ensureAlternatingAux (m :: ⟨"user", .str "Continue."⟩ :: acc) "user" rest
    else
      match acc with
      | lastMsg :: accRest =>
        if lastMsg.role = "user" then
          ensureAlternatingAux
            (⟨lastMsg.role, .parts (toParts lastMsg.content ++ toParts m.content)⟩ :: accRest)
            expectedRole rest
        else
          ensureAlternatingAux
            (m :: ⟨"assistant", .str "I will help you with that."⟩ :: acc) "assistant" rest
      | [] =>
        ensureAlternatingAux
          (m :: ⟨"assistant", .str "I will help you with that."⟩ :: acc) "assistant" rest

/-- Step 3 entry point. -/
def ensureAlternating (msgs : List ChatMessage) : List ChatMessage :=
  (ensureAlternatingAux [] "user" msgs).reverse

/-- Step 4: guarantee a non-empty message list that starts with a user
message and ends with a user message. -/
def ensureUserEnds (msgs : List ChatMessage) : List ChatMessage :=
  match msgs with
  | [] => [⟨"user", .str "Analyze the screen and provide the next action."⟩]
  | first :: _ =>
    let msgs1 :=
      if first.role ≠ "user" then ⟨"user", .str "Starting interaction."⟩ :: msgs else msgs
    match msgs1.getLast? with
    | some lastMsg =>
      if lastMsg.role ≠ "user" then msgs1 ++ [⟨"user", .str "Please provide the next action."⟩]
      else msgs1
    | none => msgs1

/-- The whole Gemini repair transformation applied to the message list
inside `invokeModelProvider` (image pruning, deep clean, same-role
merge, alternation injection, user start and end enforcement). -/
def geminiRepair (msgs : List ChatMessage) : List ChatMessage :=
  ensureUserEnds (ensureAlternating (mergeSameRoles (keepLastImage (mapSystemToUser msgs))))


/-- Invariant preservation inside step 3: if the accumulator (stored
in reverse) has no two adjacent same-role entries, the expected role
is user or assistant, an assistant-expectation means a user message
was pushed last, and a user-expectation means the last pushed message
is not a user message, then the loop output has no two adjacent
same-role entries. -/
theorem ensureAlternatingAux_chain (input : List ChatMessage) :
    ∀ (acc : List ChatMessage) (expected : String),
      List.Chain' (fun a b => a.role ≠ b.role) acc →
      (expected = "user" ∨ expected = "assistant") →
      (expected = "assistant" → ∃ h t, acc = h :: t ∧ h.role = "user") →
      (expected = "user" → ∀ h t, acc = h :: t → h.role ≠ "user") →
      List.Chain' (fun a b => a.role ≠ b.role) (ensureAlternatingAux acc expected input) := by
  induction input with
  | nil =>
    intro acc e hc _ _ _
    simpa [ensureAlternatingAux] using hc
  | cons m rest ih =>
    intro acc e hc he hA hU
    by_cases hme : m.role = e
    · simp only [ensureAlternatingAux, if_pos hme]
      rcases he with he | he
      · subst he
        have hcons : List.Chain' (fun a b => a.role ≠ b.role) (m :: acc) := by
          rw [List.chain'_cons']
          refine ⟨?_, hc⟩
          intro y hy
          cases acc with
          | nil => simp at hy
          | cons a t =>
            simp only [List.head?_cons, Option.mem_def, Option.some.injEq] at hy
            subst hy
            rw [hme]
            exact fun hcontra => (hU rfl a t rfl) hcontra.symm
        exact ih (m :: acc) _ hcons (by decide)
          (fun _ => ⟨m, acc, rfl, hme⟩)
          (fun hcontra => absurd hcontra (by decide))
      · subst he
        obtain ⟨h, t, rfl, hhr⟩ := hA rfl
        have hcons : List.Chain' (fun a b => a.role ≠ b.role) (m :: h :: t) := by
          rw [List.chain'_cons']
          refine ⟨?_, hc⟩
          intro y hy
          simp only [List.head?_cons, Option.mem_def, Option.some.injEq] at hy
          subst hy
          rw [hme, hhr]
          decide
        refine ih (m :: h :: t) _ hcons (by decide)
          (fun hcontra => absurd hcontra (by decide)) ?_
        intro _ h2 t2 heq
        injection heq with h1 _
        subst h1
        rw [hme]
        decide
    · simp only [ensureAlternatingAux, if_neg hme]
      by_cases heu : e = "user"
      · simp only [if_pos heu]
        subst heu
        have hcont : List.Chain' (fun a b => a.role ≠ b.role)
            (⟨"user", .str "Continue."⟩ :: acc) := by
          rw [List.chain'_cons']
          refine ⟨?_, hc⟩
          intro y hy
          cases acc with
          | nil => simp at hy
          | cons a t =>
            simp only [List.head?_cons, Option.mem_def, Option.some.injEq] at hy
            subst hy
            exact fun hcontra => (hU rfl a t rfl) hcontra.symm
        have hcons : List.Chain' (fun a b => a.role ≠ b.role)
            (m :: ⟨"user", .str "Continue."⟩ :: acc) := by
          rw [List.chain'_cons']
          refine ⟨?_, hcont⟩
          intro y hy
          simp only [List.head?_cons, Option.mem_def, Option.some.injEq] at hy
          subst hy
          exact hme
        exact ih _ _ hcons (Or.inl rfl)
          (fun hcontra => absurd hcontra (by decide))
          (fun _ h2 t2 heq => by
            injection heq with h1 _
            subst h1
            exact hme)
      · simp only [if_neg heu]
        have he2 : e = "assistant" := he.resolve_left heu
        subst he2
        obtain ⟨h, t, rfl, hhr⟩ := hA rfl
        simp only [if_pos hhr]
        have hcons : List.Chain' (fun a b => a.role ≠ b.role)
            ((⟨h.role, .parts (toParts h.content ++ toParts m.content)⟩ : ChatMessage) :: t) := by
          rw [List.chain'_cons']
          rw [List.chain'_cons'] at hc
          exact ⟨fun y hy => hc.1 y hy, hc.2⟩
        exact ih _ _ hcons (by decide)
          (fun _ => ⟨_, t, rfl, hhr⟩)
          (fun hcontra => absurd hcontra (by decide))


/-- The full step 3 produces a sequence with no two adjacent
same-role messages. -/
theorem ensureAlternating_chain (msgs : List ChatMessage) :
    List.Chain' (fun a b => a.role ≠ b.role) (ensureAlternating msgs) := by
  have h := ensureAlternatingAux_chain msgs [] "user" (by simp) (Or.inl rfl)
    (fun hcontra => absurd hcontra (by decide)) (fun _ h t heq => by simp at heq)
  rw [ensureAlternating, List.chain'_reverse]
  exact h.imp (fun a b hab => hab.symm)

/-- Step 4 keeps the no-adjacent-same-role property and forces a
non-empty output that starts and ends with a user message. -/
theorem ensureUserEnds_props (msgs : List ChatMessage)
    (hc : List.Chain' (fun a b => a.role ≠ b.role) msgs) :
    ensureUserEnds msgs ≠ [] ∧
    List.Chain' (fun a b => a.role ≠ b.role) (ensureUserEnds msgs) ∧
    (ensureUserEnds msgs).head?.map ChatMessage.role = some "user" ∧
    (ensureUserEnds msgs).getLast?.map ChatMessage.role = some "user" := by
  match msgs, hc with
  | [], _ => refine ⟨by simp [ensureUserEnds], by simp [ensureUserEnds], by simp [ensureUserEnds], by simp [ensureUserEnds]⟩
  | first :: rest, hc =>
    have step2 : ∀ (l : List ChatMessage) (h0 : ChatMessage) (t0 : List ChatMessage),
        l = h0 :: t0 →
        List.Chain' (fun a b => a.role ≠ b.role) l →
        h0.role = "user" →
        (match l.getLast? with
          | some lastMsg =>
            if lastMsg.role ≠ "user" then l ++ [(⟨"user", MessageContent.str "Please provide the next action."⟩ : ChatMessage)]
            else l
          | none => l) ≠ [] ∧
        List.Chain' (fun a b => a.role ≠ b.role)
          (match l.getLast? with
            | some lastMsg =>
              if lastMsg.role ≠ "user" then l ++ [(⟨"user", MessageContent.str "Please provide the next action."⟩ : ChatMessage)]
              else l
            | none => l) ∧
        (match l.getLast? with
          | some lastMsg =>
            if lastMsg.role ≠ "user" then l ++ [(⟨"user", MessageContent.str "Please provide the next action."⟩ : ChatMessage)]
            else l
          | none => l).head?.map ChatMessage.role = some "user" ∧
        (match l.getLast? with
          | some lastMsg =>
            if lastMsg.role ≠ "user" then l ++ [(⟨"user", MessageContent.str "Please provide the next action."⟩ : ChatMessage)]
            else l
          | none => l).getLast?.map ChatMessage.role = some "user" := by
      intro l h0 t0 hl hcl hrole
      subst hl
      obtain ⟨lastMsg, hlast⟩ : ∃ x, (h0 :: t0).getLast? = some x :=
        ⟨(h0 :: t0).getLast (by simp), List.getLast?_eq_getLast _ (by simp)⟩
      rw [hlast]
      by_cases hlr : lastMsg.role = "user"
      · simp only [hlr, ne_eq, not_true_eq_false, if_false]
        exact ⟨by simp, hcl, by simp [hrole], by simp [hlast, hlr]⟩
      · simp only [ne_eq, hlr, not_false_iff, if_true]
        refine ⟨by simp, ?_, by simp [hrole], by rw [List.getLast?_concat]; simp⟩
        rw [List.chain'_append]
        refine ⟨hcl, by simp, ?_⟩
        intro x hx y hy
        rw [hlast] at hx
        simp only [Option.mem_def, Option.some.injEq] at hx hy
        subst hx
        simp only [List.head?_cons, Option.some.injEq] at hy
        subst hy
        simpa using hlr
    by_cases hfr : first.role = "user"
    · have : ensureUserEnds (first :: rest) =
          (match (first :: rest).getLast? with
            | some lastMsg =>
              if lastMsg.role ≠ "user"
              then (first :: rest) ++ [⟨"user", .str "Please provide the next action."⟩]
              else (first :: rest)
            | none => (first :: rest)) := by
        simp [ensureUserEnds, hfr]
      rw [this]
      exact step2 (first :: rest) first rest rfl hc hfr
    · have hch : List.Chain' (fun a b => a.role ≠ b.role)
          ((⟨"user", .str "Starting interaction."⟩ : ChatMessage) :: first :: rest) := by
        rw [List.chain'_cons']
        exact ⟨fun y hy => by
          simp only [List.head?_cons, Option.mem_def, Option.some.injEq] at hy
          subst hy
          exact fun hcontra => hfr hcontra.symm, hc⟩
      have : ensureUserEnds (first :: rest) =
          (match ((⟨"user", .str "Starting interaction."⟩ : ChatMessage) :: first :: rest).getLast? with
            | some lastMsg =>
              if lastMsg.role ≠ "user"
              then ((⟨"user", .str "Starting interaction."⟩ : ChatMessage) :: first :: rest) ++
                [⟨"user", .str "Please provide the next action."⟩]
              else ((⟨"user", .str "Starting interaction."⟩ : ChatMessage) :: first :: rest)
            | none => ((⟨"user", .str "Starting interaction."⟩ : ChatMessage) :: first :: rest)) := by
        simp [ensureUserEnds, hfr]
      rw [this]
      exact step2 _ _ _ rfl hch rfl

/-- The composed repair pipeline always yields a non-empty sequence
with no two adjacent same-role messages, starting and ending with a
user message. -/
theorem geminiRepair_props (msgs : List ChatMessage) :
    geminiRepair msgs ≠ [] ∧
    List.Chain' (fun a b => a.role ≠ b.role) (geminiRepair msgs) ∧
    (geminiRepair msgs).head?.map ChatMessage.role = some "user" ∧
    (geminiRepair msgs).getLast?.map ChatMessage.role = some "user" :=
  ensureUserEnds_props _ (ensureAlternating_chain _)


/-- C3: for every input message list, the strict-alternation repair of
the Gemini path produces a non-empty message sequence in which no two
adjacent messages share a role, the first message has role user and
the last message has role user. -/
theorem gemini_repair_alternation (msgs : List ChatMessage) :
    geminiRepair msgs ≠ [] ∧
    List.Chain' (fun a b => a.role ≠ b.role) (geminiRepair msgs) ∧
    (geminiRepair msgs).head?.map ChatMessage.role = some "user" ∧
    (geminiRepair msgs).getLast?.map ChatMessage.role = some "user" :=
  ⟨(geminiRepair_props msgs).1, (geminiRepair_props msgs).2.1,
   (geminiRepair_props msgs).2.2.1, (geminiRepair_props msgs).2.2.2⟩


theorem dropLeadingWs_head_not_ws :
    ∀ (l : List Char) (c : Char) (cs : List Char),
      dropLeadingWs l = c :: cs → isJsWhitespace c = false := by
  intro l
  induction l with
  | nil => intro c cs h; simp [dropLeadingWs] at h
  | cons d ds ih =>
    intro c cs h
    by_cases hd : isJsWhitespace d
    · rw [dropLeadingWs, if_pos hd] at h
      exact ih c cs h
    · rw [dropLeadingWs, if_neg hd] at h
      cases h
      simpa using hd

theorem dropLeadingWs_of_head :
    ∀ l : List Char, (∀ c cs, l = c :: cs → isJsWhitespace c = false) →
      dropLeadingWs l = l := by
  intro l h
  cases l with
  | nil => rfl
  | cons c cs => rw [dropLeadingWs, if_neg (by simp [h c cs rfl])]

theorem dropLeadingWs_suffix (l : List Char) : dropLeadingWs l <:+ l := by
  induction l with
  | nil => exact List.suffix_refl _
  | cons c cs ih =>
    by_cases hc : isJsWhitespace c
    · rw [dropLeadingWs, if_pos hc]
      exact ih.trans (List.suffix_cons c cs)
    · rw [dropLeadingWs, if_neg hc]

theorem trimChars_idem (l : List Char) : trimChars (trimChars l) = trimChars l := by
  rcases hy : trimChars l with - | ⟨c, cs⟩
  · rfl
  · have hhead : isJsWhitespace c = false := by
      rw [trimChars] at hy
      exact dropLeadingWs_head_not_ws _ c cs hy
    have hlastne : ∀ d ds, (c :: cs).reverse = d :: ds → isJsWhitespace d = false := by
      intro d ds hrev
      rw [trimChars] at hy
      have hsuf : (c :: cs) <:+ (dropLeadingWs l.reverse).reverse := hy ▸ dropLeadingWs_suffix _
      obtain ⟨w, hw⟩ := hsuf
      have hpre : dropLeadingWs l.reverse = (c :: cs).reverse ++ w.reverse := by
        rw [← List.reverse_reverse (dropLeadingWs l.reverse), ← hw]
        simp
      rw [hrev] at hpre
      exact dropLeadingWs_head_not_ws l.reverse d (ds ++ w.reverse) (by simpa using hpre)
    show trimChars (c :: cs) = c :: cs
    rw [trimChars]
    rcases hrev : (c :: cs).reverse with - | ⟨d, ds⟩
    · simp at hrev
    · have h1 : dropLeadingWs (d :: ds) = d :: ds :=
        dropLeadingWs_of_head _ (fun e es he => by cases he; exact hlastne _ _ hrev)
      rw [h1, ← hrev, List.reverse_reverse]
      exact dropLeadingWs_of_head _ (fun e es he => by cases he; exact hhead)

theorem strTrim_idem (s : String) : strTrim (strTrim s) = strTrim s := by
  show (⟨trimChars (⟨trimChars s.data⟩ : String).data⟩ : String) = ⟨trimChars s.data⟩
  rw [show (⟨trimChars s.data⟩ : String).data = trimChars s.data from rfl, trimChars_idem]

theorem cleanContent_fix (c c2 : MessageContent) (h : cleanContent c = some c2) :
    cleanContent c2 = some c2 := by
  cases c with
  | str s =>
    rw [cleanContent] at h
    by_cases hz : (strTrim s).length = 0
    · rw [if_pos hz] at h; cases h
    · rw [if_neg hz] at h
      cases h
      rw [cleanContent, strTrim_idem, if_neg hz]
  | parts ps =>
    rw [cleanContent] at h
    by_cases hz : ps.filter keepPart = []
    · simp only [hz, if_pos] at h; cases h
    · simp only [hz, if_neg, not_false_iff] at h
      cases h
      rw [cleanContent]
      have : (ps.filter keepPart).filter keepPart = ps.filter keepPart := by
        simp [List.filter_filter]
      simp only [this, hz, if_neg, not_false_iff]
  | nullContent => rw [cleanContent] at h; cases h

theorem toParts_keep (c : MessageContent) (h : cleanContent c = some c) :
    ∀ p ∈ toParts c, keepPart p = true := by
  cases c with
  | str s =>
    rw [cleanContent] at h
    by_cases hz : (strTrim s).length = 0
    · rw [if_pos hz] at h; cases h
    · rw [if_neg hz] at h
      intro p hp
      simp only [toParts, List.mem_singleton] at hp
      subst hp
      simpa [keepPart] using hz
  | parts ps =>
    rw [cleanContent] at h
    by_cases hz : ps.filter keepPart = []
    · simp only [hz, if_pos] at h; cases h
    · simp only [hz, if_neg, not_false_iff, Option.some.injEq, MessageContent.parts.injEq] at h
      intro p hp
      rw [toParts] at hp
      rw [← h] at hp
      exact (List.mem_filter.mp hp).2
  | nullContent => rw [cleanContent] at h; cases h

theorem toParts_ne_nil (c : MessageContent) (h : cleanContent c = some c) :
    toParts c ≠ [] := by
  cases c with
  | str s => simp [toParts]
  | parts ps =>
    rw [cleanContent] at h
    by_cases hz : ps.filter keepPart = []
    · simp only [hz, if_pos] at h; cases h
    · simp only [hz, if_neg, not_false_iff, Option.some.injEq, MessageContent.parts.injEq] at h
      rw [toParts, ← h]
      exact hz
  | nullContent => rw [cleanContent] at h; cases h

theorem clean_merge (c1 c2 : MessageContent)
    (h1 : cleanContent c1 = some c1) (h2 : cleanContent c2 = some c2) :
    cleanContent (.parts (toParts c1 ++ toParts c2)) =
      some (.parts (toParts c1 ++ toParts c2)) := by
  have hf : (toParts c1 ++ toParts c2).filter keepPart = toParts c1 ++ toParts c2 :=
    List.filter_eq_self.mpr (by
      intro p hp
      rcases List.mem_append.mp hp with hp | hp
      · exact toParts_keep c1 h1 p hp
      · exact toParts_keep c2 h2 p hp)
  rw [cleanContent]
  simp only [hf]
  rw [if_neg (by simp [toParts_ne_nil c1 h1])]



/-- A message whose content is a fixed point of the deep clean. -/
def cleanMsg (m : ChatMessage) : Prop := cleanContent m.content = some m.content

theorem mergeSameRolesAux_clean (l : List ChatMessage) :
    ∀ acc, (∀ m ∈ acc, cleanMsg m) → ∀ x ∈ mergeSameRolesAux acc l, cleanMsg x := by
  induction l with
  | nil => intro acc hacc x hx; exact hacc x hx
  | cons m rest ih =>
    intro acc hacc x hx
    rw [mergeSameRolesAux] at hx
    rcases hcc : cleanContent m.content with - | c
    · simp only [hcc] at hx
      exact ih acc hacc x hx
    · simp only [hcc] at hx
      have hc : cleanContent c = some c := cleanContent_fix _ _ hcc
      cases acc with
      | nil =>
        refine ih [⟨m.role, c⟩] ?_ x hx
        intro y hy
        simp only [List.mem_singleton] at hy
        subst hy
        exact hc
      | cons lastMsg accRest =>
        by_cases hrole : lastMsg.role = m.role
        · simp only [if_pos hrole] at hx
          refine ih _ ?_ x hx
          intro y hy
          rcases List.mem_cons.mp hy with hy | hy
          · subst hy
            exact clean_merge _ _ (hacc lastMsg (by simp)) hc
          · exact hacc y (List.mem_cons_of_mem _ hy)
        · simp only [if_neg hrole] at hx
          refine ih _ ?_ x hx
          intro y hy
          rcases List.mem_cons.mp hy with hy | hy
          · subst hy; exact hc
          · exact hacc y hy

theorem mergeSameRoles_clean (l : List ChatMessage) :
    ∀ x ∈ mergeSameRoles l, cleanMsg x := by
  intro x hx
  rw [mergeSameRoles, List.mem_reverse] at hx
  exact mergeSameRolesAux_clean l [] (by simp) x hx

theorem mergeSameRolesAux_id (l : List ChatMessage) :
    ∀ acc, (∀ m ∈ l, cleanMsg m) → List.Chain' (fun a b => a.role ≠ b.role) l →
      (∀ a ∈ acc.head?, ∀ b ∈ l.head?, a.role ≠ b.role) →
      mergeSameRolesAux acc l = l.reverse ++ acc := by
  induction l with
  | nil => intro acc _ _ _; simp [mergeSameRolesAux]
  | cons m rest ih =>
    intro acc hclean hchain hsep
    rw [mergeSameRolesAux]
    have hm : cleanContent m.content = some m.content := hclean m (by simp)
    simp only [hm]
    have hrest : ∀ x ∈ rest, cleanMsg x := fun x hx => hclean x (List.mem_cons_of_mem _ hx)
    have hchainrest : List.Chain' (fun a b => a.role ≠ b.role) rest :=
      (List.chain'_cons'.mp hchain).2
    have hsep2 : ∀ a ∈ (m :: acc).head?, ∀ b ∈ rest.head?, a.role ≠ b.role := by
      intro a ha b hb
      simp only [List.head?_cons, Option.mem_def, Option.some.injEq] at ha
      subst ha
      exact (List.chain'_cons'.mp hchain).1 b hb
    cases acc with
    | nil =>
      dsimp only
      rw [show (⟨m.role, m.content⟩ : ChatMessage) = m from rfl]
      rw [ih [m] hrest hchainrest hsep2]
      simp
    | cons lastMsg accRest =>
      have hne : lastMsg.role ≠ m.role := hsep lastMsg (by simp) m (by simp)
      dsimp only
      rw [if_neg hne]
      rw [show (⟨m.role, m.content⟩ : ChatMessage) = m from rfl]
      rw [ih (m :: lastMsg :: accRest) hrest hchainrest hsep2]
      simp

theorem mergeSameRoles_id (l : List ChatMessage)
    (hclean : ∀ m ∈ l, cleanMsg m)
    (hchain : List.Chain' (fun a b => a.role ≠ b.role) l) :
    mergeSameRoles l = l := by
  rw [mergeSameRoles, mergeSameRolesAux_id l [] hclean hchain (by simp)]
  simp



theorem ensureAlternatingAux_clean (l : List ChatMessage) :
    ∀ acc e, (∀ m ∈ acc, cleanMsg m) → (∀ m ∈ l, cleanMsg m) →
      ∀ x ∈ ensureAlternatingAux acc e l, cleanMsg x := by
  induction l with
  | nil => intro acc e hacc _ x hx; simp only [ensureAlternatingAux] at hx; exact hacc x hx
  | cons m rest ih =>
    intro acc e hacc hl x hx
    have hm : cleanMsg m := hl m (by simp)
    have hrest : ∀ y ∈ rest, cleanMsg y := fun y hy => hl y (List.mem_cons_of_mem _ hy)
    simp only [ensureAlternatingAux] at hx
    by_cases hme : m.role = e
    · simp only [if_pos hme] at hx
      refine ih _ _ ?_ hrest x hx
      intro y hy
      rcases List.mem_cons.mp hy with hy | hy
      · subst hy; exact hm
      · exact hacc y hy
    · simp only [if_neg hme] at hx
      by_cases heu : e = "user"
      · simp only [if_pos heu] at hx
        refine ih _ _ ?_ hrest x hx
        intro y hy
        rcases List.mem_cons.mp hy with hy | hy
        · subst hy; exact hm
        · rcases List.mem_cons.mp hy with hy | hy
          · subst hy; show cleanContent _ = _; decide
          · exact hacc y hy
      · simp only [if_neg heu] at hx
        cases acc with
        | nil =>
          dsimp only at hx
          refine ih _ _ ?_ hrest x hx
          intro y hy
          rcases List.mem_cons.mp hy with hy | hy
          · subst hy; exact hm
          · rcases List.mem_cons.mp hy with hy | hy
            · subst hy; show cleanContent _ = _; decide
            · simp at hy
        | cons lastMsg accRest =>
          dsimp only at hx
          by_cases hlr : lastMsg.role = "user"
          · simp only [if_pos hlr] at hx
            refine ih _ _ ?_ hrest x hx
            intro y hy
            rcases List.mem_cons.mp hy with hy | hy
            · subst hy
              exact clean_merge _ _ (hacc lastMsg (by simp)) hm
            · exact hacc y (List.mem_cons_of_mem _ hy)
          · simp only [if_neg hlr] at hx
            refine ih _ _ ?_ hrest x hx
            intro y hy
            rcases List.mem_cons.mp hy with hy | hy
            · subst hy; exact hm
            · rcases List.mem_cons.mp hy with hy | hy
              · subst hy; show cleanContent _ = _; decide
              · exact hacc y hy

theorem ensureAlternating_clean (l : List ChatMessage)
    (hl : ∀ m ∈ l, cleanMsg m) : ∀ x ∈ ensureAlternating l, cleanMsg x := by
  intro x hx
  rw [ensureAlternating, List.mem_reverse] at hx
  exact ensureAlternatingAux_clean l [] "user" (by simp) hl x hx

/-- Messages whose roles strictly alternate starting from the
expected role. -/
def altFrom : String → List ChatMessage → Prop
  | _, [] => True
  | e, m :: rest => m.role = e ∧ altFrom (if e = "user" then "assistant" else "user") rest

theorem altFrom_of_chain (l : List ChatMessage) :
    ∀ e, (∀ m ∈ l, m.role = "user" ∨ m.role = "assistant") →
      List.Chain' (fun a b => a.role ≠ b.role) l →
      (∀ h ∈ l.head?, h.role = e) → altFrom e l := by
  induction l with
  | nil => intro e _ _ _; trivial
  | cons m rest ih =>
    intro e hroles hchain hhead
    have hme : m.role = e := hhead m (by simp)
    refine ⟨hme, ih _ (fun y hy => hroles y (List.mem_cons_of_mem _ hy))
      (List.chain'_cons'.mp hchain).2 ?_⟩
    intro h hh
    have hne : m.role ≠ h.role := (List.chain'_cons'.mp hchain).1 h hh
    have hhr : h.role = "user" ∨ h.role = "assistant" := by
      apply hroles
      exact List.mem_cons_of_mem _ (List.mem_of_mem_head? hh)
    rcases hroles m (by simp) with hmr | hmr
    · rw [hmr] at hme hne
      rw [← hme, if_pos rfl]
      rcases hhr with h1 | h1
      · exact absurd h1.symm hne
      · exact h1
    · rw [hmr] at hme hne
      rw [← hme, if_neg (by decide)]
      rcases hhr with h1 | h1
      · exact h1
      · exact absurd h1.symm hne


theorem ensureAlternatingAux_id (l : List ChatMessage) :
    ∀ acc e, altFrom e l → ensureAlternatingAux acc e l = l.reverse ++ acc := by
  induction l with
  | nil => intro acc e _; simp [ensureAlternatingAux]
  | cons m rest ih =>
    intro acc e halt
    obtain ⟨hme, hrest⟩ := halt
    simp only [ensureAlternatingAux, if_pos hme]
    rw [ih (m :: acc) _ hrest]
    simp

theorem ensureAlternating_id (l : List ChatMessage) (h : altFrom "user" l) :
    ensureAlternating l = l := by
  rw [ensureAlternating, ensureAlternatingAux_id l [] "user" h]
  simp

theorem ensureUserEnds_id (l : List ChatMessage)
    (hh : l.head?.map ChatMessage.role = some "user")
    (hl : l.getLast?.map ChatMessage.role = some "user") :
    ensureUserEnds l = l := by
  cases l with
  | nil => simp at hh
  | cons first rest =>
    have hfr : first.role = "user" := by simpa using hh
    simp only [ensureUserEnds, hfr, ne_eq, not_true_eq_false, if_false]
    obtain ⟨lastMsg, hlast⟩ : ∃ x, (first :: rest).getLast? = some x :=
      ⟨(first :: rest).getLast (by simp), List.getLast?_eq_getLast _ (by simp)⟩
    rw [hlast]
    have hlr : lastMsg.role = "user" := by
      rw [hlast] at hl
      simpa using hl
    simp [hlr]

theorem ensureUserEnds_clean (l : List ChatMessage)
    (hl : ∀ m ∈ l, cleanMsg m) : ∀ x ∈ ensureUserEnds l, cleanMsg x := by
  intro x hx
  cases l with
  | nil =>
    simp only [ensureUserEnds, List.mem_singleton] at hx
    subst hx
    show cleanContent _ = _
    decide
  | cons first rest =>
    by_cases hfr : first.role = "user"
    · simp only [ensureUserEnds, hfr, ne_eq, not_true_eq_false, if_false] at hx
      rcases hcase : (first :: rest).getLast? with - | lastMsg
      · rw [hcase] at hx
        exact hl x hx
      · rw [hcase] at hx
        by_cases hlr : lastMsg.role = "user"
        · simp only [hlr, ne_eq, not_true_eq_false, if_false] at hx
          exact hl x hx
        · simp only [ne_eq, hlr, not_false_iff, if_true] at hx
          rcases List.mem_append.mp hx with hx | hx
          · exact hl x hx
          · simp only [List.mem_singleton] at hx
            subst hx
            show cleanContent _ = _
            decide
    · simp only [ensureUserEnds, ne_eq, hfr, not_false_iff, if_true] at hx
      rcases hcase : ((⟨"user", .str "Starting interaction."⟩ : ChatMessage) :: first :: rest).getLast? with - | lastMsg
      · rw [hcase] at hx
        rcases List.mem_cons.mp hx with hx | hx
        · subst hx; show cleanContent _ = _; decide
        · exact hl x hx
      · rw [hcase] at hx
        by_cases hlr : lastMsg.role = "user"
        · simp only [hlr, ne_eq, not_true_eq_false, if_false] at hx
          rcases List.mem_cons.mp hx with hx | hx
          · subst hx; show cleanContent _ = _; decide
          · exact hl x hx
        · simp only [ne_eq, hlr, not_false_iff, if_true] at hx
          rcases List.mem_append.mp hx with hx | hx
          · rcases List.mem_cons.mp hx with hx | hx
            · subst hx; show cleanContent _ = _; decide
            · exact hl x hx
          · simp only [List.mem_singleton] at hx
            subst hx
            show cleanContent _ = _
            decide

theorem mapSystemToUser_id (l : List ChatMessage)
    (h : ∀ m ∈ l, m.role ≠ "system") : mapSystemToUser l = l := by
  rw [mapSystemToUser]
  have : ∀ m ∈ l,
      ({ m with role := if m.role = "system" then "user" else m.role } : ChatMessage) = m := by
    intro m hm
    rw [if_neg (h m hm)]
  exact (List.map_congr_left this).trans (List.map_id l)



/-- A repaired role: user or assistant. -/
def roleOk (m : ChatMessage) : Prop := m.role = "user" ∨ m.role = "assistant"

theorem mapSystemToUser_roleOk (l : List ChatMessage)
    (h : ∀ m ∈ l, m.role = "user" ∨ m.role = "assistant" ∨ m.role = "system") :
    ∀ x ∈ mapSystemToUser l, roleOk x := by
  intro x hx
  rw [mapSystemToUser] at hx
  obtain ⟨m, hm, rfl⟩ := List.mem_map.mp hx
  rcases h m hm with h1 | h1 | h1
  · left; simp [h1]
  · right
    simp only [h1]
    rw [if_neg (by decide)]
  · left; simp [h1]

theorem keepLastImageAux_roles (l : List ChatMessage) :
    ∀ f, ((keepLastImageAux f l).2).map (fun m => m.role) = l.map (fun m => m.role) := by
  induction l with
  | nil => intro f; rfl
  | cons m rest ih =>
    intro f
    rcases hmc : m.content with s | ps | -
    · rcases haux : keepLastImageAux f rest with ⟨f2, rest2⟩
      simp only [keepLastImageAux, hmc, haux]
      have := ih f
      rw [haux] at this
      simp only [List.map_cons, this]
    · rcases hfp : filterImageParts f ps with ⟨f1, ps2⟩
      rcases haux : keepLastImageAux f1 rest with ⟨f2, rest2⟩
      simp only [keepLastImageAux, hmc, hfp, haux]
      have := ih f1
      rw [haux] at this
      simp only [List.map_cons, this]
    · rcases haux : keepLastImageAux f rest with ⟨f2, rest2⟩
      simp only [keepLastImageAux, hmc, haux]
      have := ih f
      rw [haux] at this
      simp only [List.map_cons, this]

theorem keepLastImage_roles (l : List ChatMessage) :
    (keepLastImage l).map (fun m => m.role) = l.map (fun m => m.role) := by
  rw [keepLastImage, List.map_reverse, keepLastImageAux_roles l.reverse false,
    List.map_reverse, List.reverse_reverse]

theorem keepLastImage_roleOk (l : List ChatMessage)
    (h : ∀ m ∈ l, roleOk m) : ∀ x ∈ keepLastImage l, roleOk x := by
  intro x hx
  have hmem : x.role ∈ (keepLastImage l).map (fun m => m.role) :=
    List.mem_map_of_mem _ hx
  rw [keepLastImage_roles] at hmem
  obtain ⟨m, hm, he⟩ := List.mem_map.mp hmem
  rcases h m hm with h1 | h1
  · left; rw [← he, h1]
  · right; rw [← he, h1]

theorem mergeSameRolesAux_roleOk (l : List ChatMessage) :
    ∀ acc, (∀ m ∈ acc, roleOk m) → (∀ m ∈ l, roleOk m) →
      ∀ x ∈ mergeSameRolesAux acc l, roleOk x := by
  induction l with
  | nil => intro acc hacc _ x hx; exact hacc x hx
  | cons m rest ih =>
    intro acc hacc hl x hx
    have hm : roleOk m := hl m (by simp)
    have hrest : ∀ y ∈ rest, roleOk y := fun y hy => hl y (List.mem_cons_of_mem _ hy)
    rw [mergeSameRolesAux] at hx
    rcases hcc : cleanContent m.content with - | c
    · simp only [hcc] at hx
      exact ih acc hacc hrest x hx
    · simp only [hcc] at hx
      cases acc with
      | nil =>
        refine ih _ ?_ hrest x hx
        intro y hy
        simp only [List.mem_singleton] at hy
        subst hy
        exact hm
      | cons lastMsg accRest =>
        by_cases hrole : lastMsg.role = m.role
        · simp only [if_pos hrole] at hx
          refine ih _ ?_ hrest x hx
          intro y hy
          rcases List.mem_cons.mp hy with hy | hy
          · subst hy
            exact hacc lastMsg (by simp)
          · exact hacc y (List.mem_cons_of_mem _ hy)
        · simp only [if_neg hrole] at hx
          refine ih _ ?_ hrest x hx
          intro y hy
          rcases List.mem_cons.mp hy with hy | hy
          · subst hy; exact hm
          · exact hacc y hy

theorem mergeSameRoles_roleOk (l : List ChatMessage)
    (hl : ∀ m ∈ l, roleOk m) : ∀ x ∈ mergeSameRoles l, roleOk x := by
  intro x hx
  rw [mergeSameRoles, List.mem_reverse] at hx
  exact mergeSameRolesAux_roleOk l [] (by simp) hl x hx

theorem ensureAlternatingAux_roleOk (l : List ChatMessage) :
    ∀ acc e, (∀ m ∈ acc, roleOk m) → (∀ m ∈ l, roleOk m) →
      ∀ x ∈ ensureAlternatingAux acc e l, roleOk x := by
  induction l with
  | nil => intro acc e hacc _ x hx; simp only [ensureAlternatingAux] at hx; exact hacc x hx
  | cons m rest ih =>
    intro acc e hacc hl x hx
    have hm : roleOk m := hl m (by simp)
    have hrest : ∀ y ∈ rest, roleOk y := fun y hy => hl y (List.mem_cons_of_mem _ hy)
    simp only [ensureAlternatingAux] at hx
    by_cases hme : m.role = e
    · simp only [if_pos hme] at hx
      refine ih _ _ ?_ hrest x hx
      intro y hy
      rcases List.mem_cons.mp hy with hy | hy
      · subst hy; exact hm
      · exact hacc y hy
    · simp only [if_neg hme] at hx
      by_cases heu : e = "user"
      · simp only [if_pos heu] at hx
        refine ih _ _ ?_ hrest x hx
        intro y hy
        rcases List.mem_cons.mp hy with hy | hy
        · subst hy; exact hm
        · rcases List.mem_cons.mp hy with hy | hy
          · subst hy; left; rfl
          · exact hacc y hy
      · simp only [if_neg heu] at hx
        cases acc with
        | nil =>
          dsimp only at hx
          refine ih _ _ ?_ hrest x hx
          intro y hy
          rcases List.mem_cons.mp hy with hy | hy
          · subst hy; exact hm
          · rcases List.mem_cons.mp hy with hy | hy
            · subst hy; right; rfl
            · simp at hy
        | cons lastMsg accRest =>
          dsimp only at hx
          by_cases hlr : lastMsg.role = "user"
          · simp only [if_pos hlr] at hx
            refine ih _ _ ?_ hrest x hx
            intro y hy
            rcases List.mem_cons.mp hy with hy | hy
            · subst hy
              exact hacc lastMsg (by simp)
            · exact hacc y (List.mem_cons_of_mem _ hy)
          · simp only [if_neg hlr] at hx
            refine ih _ _ ?_ hrest x hx
            intro y hy
            rcases List.mem_cons.mp hy with hy | hy
            · subst hy; exact hm
            · rcases List.mem_cons.mp hy with hy | hy
              · subst hy; right; rfl
              · exact hacc y hy

theorem ensureAlternating_roleOk (l : List ChatMessage)
    (hl : ∀ m ∈ l, roleOk m) : ∀ x ∈ ensureAlternating l, roleOk x := by
  intro x hx
  rw [ensureAlternating, List.mem_reverse] at hx
  exact ensureAlternatingAux_roleOk l [] "user" (by simp) hl x hx

theorem ensureUserEnds_roleOk (l : List ChatMessage)
    (hl : ∀ m ∈ l, roleOk m) : ∀ x ∈ ensureUserEnds l, roleOk x := by
  intro x hx
  cases l with
  | nil =>
    simp only [ensureUserEnds, List.mem_singleton] at hx
    subst hx
    left; rfl
  | cons first rest =>
    by_cases hfr : first.role = "user"
    · simp only [ensureUserEnds, hfr, ne_eq, not_true_eq_false, if_false] at hx
      rcases hcase : (first :: rest).getLast? with - | lastMsg
      · rw [hcase] at hx
        exact hl x hx
      · rw [hcase] at hx
        by_cases hlr : lastMsg.role = "user"
        · simp only [hlr, ne_eq, not_true_eq_false, if_false] at hx
          exact hl x hx
        · simp only [ne_eq, hlr, not_false_iff, if_true] at hx
          rcases List.mem_append.mp hx with hx | hx
          · exact hl x hx
          · simp only [List.mem_singleton] at hx
            subst hx; left; rfl
    · simp only [ensureUserEnds, ne_eq, hfr, not_false_iff, if_true] at hx
      rcases hcase : ((⟨"user", .str "Starting interaction."⟩ : ChatMessage) :: first :: rest).getLast? with - | lastMsg
      · rw [hcase] at hx
        rcases List.mem_cons.mp hx with hx | hx
        · subst hx; left; rfl
        · exact hl x hx
      · rw [hcase] at hx
        by_cases hlr : lastMsg.role = "user"
        · simp only [hlr, ne_eq, not_true_eq_false, if_false] at hx
          rcases List.mem_cons.mp hx with hx | hx
          · subst hx; left; rfl
          · exact hl x hx
        · simp only [ne_eq, hlr, not_false_iff, if_true] at hx
          rcases List.mem_append.mp hx with hx | hx
          · rcases List.mem_cons.mp hx with hx | hx
            · subst hx; left; rfl
            · exact hl x hx
          · simp only [List.mem_singleton] at hx
            subst hx; left; rfl

theorem geminiRepair_roleOk (msgs : List ChatMessage)
    (h : ∀ m ∈ msgs, m.role = "user" ∨ m.role = "assistant" ∨ m.role = "system") :
    ∀ x ∈ geminiRepair msgs, roleOk x :=
  ensureUserEnds_roleOk _ (ensureAlternating_roleOk _ (mergeSameRoles_roleOk _
    (keepLastImage_roleOk _ (mapSystemToUser_roleOk _ h))))

theorem geminiRepair_clean (msgs : List ChatMessage) :
    ∀ x ∈ geminiRepair msgs, cleanMsg x :=
  ensureUserEnds_clean _ (ensureAlternating_clean _ (mergeSameRoles_clean _))



/-- Whether a part is a Chat-Completions image part. -/
def isImagePart : ContentPart → Bool
  | .imageUrl _ => true
  | _ => false

/-- Number of image parts in a message content. -/
def contentImages : MessageContent → ℕ
  | .parts ps => ps.countP isImagePart
  | _ => 0

/-- Total number of image parts across a message list. -/
def totalImages (l : List ChatMessage) : ℕ :=
  (l.map (fun m => contentImages m.content)).sum

theorem totalImages_cons (m : ChatMessage) (l : List ChatMessage) :
    totalImages (m :: l) = contentImages m.content + totalImages l := by
  simp [totalImages]

theorem filterImageParts_no_images (ps : List ContentPart)
    (h : ps.countP isImagePart = 0) : ∀ f, filterImageParts f ps = (f, ps) := by
  induction ps with
  | nil => intro f; rfl
  | cons p rest ih =>
    intro f
    rw [List.countP_cons] at h
    cases p with
    | imageUrl u => simp [isImagePart] at h
    | text t => simp [filterImageParts, ih (by omega) f]
    | inputImage u => simp [filterImageParts, ih (by omega) f]
    | otherPart => simp [filterImageParts, ih (by omega) f]

theorem filterImageParts_true (ps : List ContentPart) :
    (filterImageParts true ps).1 = true ∧
    ((filterImageParts true ps).2).countP isImagePart = 0 := by
  induction ps with
  | nil => exact ⟨rfl, rfl⟩
  | cons p rest ih =>
    cases p with
    | imageUrl u => simpa [filterImageParts] using ih
    | text t => simp [filterImageParts, List.countP_cons, isImagePart, ih.1, ih.2]
    | inputImage u => simp [filterImageParts, List.countP_cons, isImagePart, ih.1, ih.2]
    | otherPart => simp [filterImageParts, List.countP_cons, isImagePart, ih.1, ih.2]

theorem filterImageParts_false_count (ps : List ContentPart) :
    ((filterImageParts false ps).2).countP isImagePart ≤ 1 := by
  induction ps with
  | nil => simp [filterImageParts]
  | cons p rest ih =>
    cases p with
    | imageUrl u =>
      simp [filterImageParts, List.countP_cons, isImagePart, (filterImageParts_true rest).2]
    | text t => simpa [filterImageParts, List.countP_cons, isImagePart] using ih
    | inputImage u => simpa [filterImageParts, List.countP_cons, isImagePart] using ih
    | otherPart => simpa [filterImageParts, List.countP_cons, isImagePart] using ih

theorem filterImageParts_false_flag (ps : List ContentPart)
    (h : (filterImageParts false ps).1 = false) :
    ps.countP isImagePart = 0 ∧ (filterImageParts false ps).2 = ps := by
  induction ps with
  | nil => exact ⟨rfl, rfl⟩
  | cons p rest ih =>
    cases p with
    | imageUrl u =>
      rw [filterImageParts] at h
      simp only [Bool.false_eq_true, if_false] at h
      rw [(filterImageParts_true rest).1] at h
      cases h
    | text t =>
      rw [filterImageParts] at h
      simp only at h
      obtain ⟨h1, h2⟩ := ih h
      simp [filterImageParts, List.countP_cons, isImagePart, h1, h2]
    | inputImage u =>
      rw [filterImageParts] at h
      simp only at h
      obtain ⟨h1, h2⟩ := ih h
      simp [filterImageParts, List.countP_cons, isImagePart, h1, h2]
    | otherPart =>
      rw [filterImageParts] at h
      simp only at h
      obtain ⟨h1, h2⟩ := ih h
      simp [filterImageParts, List.countP_cons, isImagePart, h1, h2]

theorem filterImageParts_le_one_id (ps : List ContentPart)
    (h : ps.countP isImagePart ≤ 1) : (filterImageParts false ps).2 = ps := by
  induction ps with
  | nil => rfl
  | cons p rest ih =>
    rw [List.countP_cons] at h
    cases p with
    | imageUrl u =>
      have hrest : rest.countP isImagePart = 0 := by
        simp only [isImagePart, if_pos] at h
        omega
      simp [filterImageParts, filterImageParts_no_images rest hrest true]
    | text t => simp [filterImageParts, ih (by omega)]
    | inputImage u => simp [filterImageParts, ih (by omega)]
    | otherPart => simp [filterImageParts, ih (by omega)]



theorem keepLastImageAux_noimg (l : List ChatMessage) :
    ∀ f, totalImages l = 0 → keepLastImageAux f l = (f, l) := by
  induction l with
  | nil => intro f _; rfl
  | cons m rest ih =>
    intro f h
    rw [totalImages_cons] at h
    have hm : contentImages m.content = 0 := by omega
    have hrest := ih f (by omega)
    rcases hmc : m.content with s | ps | -
    · simp [keepLastImageAux, hmc, hrest]
    · rw [hmc, contentImages] at hm
      have hfp := filterImageParts_no_images ps hm f
      simp only [keepLastImageAux, hmc, hfp, hrest]
      rw [← hmc]
    · simp [keepLastImageAux, hmc, hrest]

theorem keepLastImageAux_true (l : List ChatMessage) :
    (keepLastImageAux true l).1 = true ∧
    totalImages ((keepLastImageAux true l).2) = 0 := by
  induction l with
  | nil => exact ⟨rfl, rfl⟩
  | cons m rest ih =>
    rcases hmc : m.content with s | ps | -
    · rcases haux : keepLastImageAux true rest with ⟨f2, rest2⟩
      rw [haux] at ih
      simp only [keepLastImageAux, hmc, haux, totalImages_cons]
      exact ⟨ih.1, by simp [hmc, contentImages, ih.2]⟩
    · rcases hfp : filterImageParts true ps with ⟨f1, ps2⟩
      have hft := filterImageParts_true ps
      rw [hfp] at hft
      dsimp only at hft
      obtain ⟨hf1, hcnt⟩ := hft
      subst hf1
      rcases haux : keepLastImageAux true rest with ⟨f2, rest2⟩
      rw [haux] at ih
      dsimp only at ih
      simp only [keepLastImageAux, hmc, hfp, haux, totalImages_cons]
      exact ⟨ih.1, by simp [contentImages, hcnt, ih.2]⟩
    · rcases haux : keepLastImageAux true rest with ⟨f2, rest2⟩
      rw [haux] at ih
      simp only [keepLastImageAux, hmc, haux, totalImages_cons]
      exact ⟨ih.1, by simp [hmc, contentImages, ih.2]⟩



theorem keepLastImageAux_false_count (l : List ChatMessage) :
    totalImages ((keepLastImageAux false l).2) ≤ 1 := by
  induction l with
  | nil => simp [keepLastImageAux, totalImages]
  | cons m rest ih =>
    rcases hmc : m.content with s | ps | -
    · rcases haux : keepLastImageAux false rest with ⟨f2, rest2⟩
      rw [haux] at ih
      dsimp only at ih
      simp only [keepLastImageAux, hmc, haux, totalImages_cons]
      simpa [hmc, contentImages] using ih
    · rcases hfp : filterImageParts false ps with ⟨f1, ps2⟩
      cases f1 with
      | false =>
        have hflag := filterImageParts_false_flag ps (by rw [hfp])
        rcases haux : keepLastImageAux false rest with ⟨f2, rest2⟩
        rw [haux] at ih
        dsimp only at ih
        simp only [keepLastImageAux, hmc, hfp, haux, totalImages_cons]
        have hps2 : ps2 = ps := by
          have := hflag.2
          rw [hfp] at this
          exact this
        subst hps2
        simp only [contentImages, hflag.1]
        omega
      | true =>
        have hcnt : ps2.countP isImagePart ≤ 1 := by
          have := filterImageParts_false_count ps
          rw [hfp] at this
          exact this
        rcases haux : keepLastImageAux true rest with ⟨f2, rest2⟩
        have htru := keepLastImageAux_true rest
        rw [haux] at htru
        dsimp only at htru
        simp only [keepLastImageAux, hmc, hfp, haux, totalImages_cons]
        simp only [contentImages, htru.2]
        omega
    · rcases haux : keepLastImageAux false rest with ⟨f2, rest2⟩
      rw [haux] at ih
      dsimp only at ih
      simp only [keepLastImageAux, hmc, haux, totalImages_cons]
      simpa [hmc, contentImages] using ih

theorem keepLastImageAux_le_one_id (l : List ChatMessage)
    (h : totalImages l ≤ 1) : (keepLastImageAux false l).2 = l := by
  induction l with
  | nil => rfl
  | cons m rest ih =>
    rw [totalImages_cons] at h
    rcases hmc : m.content with s | ps | -
    · rcases haux : keepLastImageAux false rest with ⟨f2, rest2⟩
      have := ih (by omega)
      rw [haux] at this
      dsimp only at this
      simp [keepLastImageAux, hmc, haux, this]
    · have hcm : contentImages m.content = ps.countP isImagePart := by
        rw [hmc, contentImages]
      rcases hfp : filterImageParts false ps with ⟨f1, ps2⟩
      have hps2 : ps2 = ps := by
        have := filterImageParts_le_one_id ps (by omega)
        rw [hfp] at this
        exact this
      rw [hps2] at hfp
      cases f1 with
      | false =>
        rcases haux : keepLastImageAux false rest with ⟨f2, rest2⟩
        have := ih (by omega)
        rw [haux] at this
        dsimp only at this
        simp only [keepLastImageAux, hmc, hfp, haux]
        rw [this, ← hmc]
      | true =>
        have hpos : 1 ≤ ps.countP isImagePart := by
          by_contra hcon
          have hzero : ps.countP isImagePart = 0 := by omega
          have := filterImageParts_no_images ps hzero false
          rw [hfp] at this
          cases this
        have hrest0 : totalImages rest = 0 := by omega
        have := keepLastImageAux_noimg rest true hrest0
        simp only [keepLastImageAux, hmc, hfp, this]
        rw [← hmc]
    · rcases haux : keepLastImageAux false rest with ⟨f2, rest2⟩
      have := ih (by omega)
      rw [haux] at this
      dsimp only at this
      simp [keepLastImageAux, hmc, haux, this]

theorem totalImages_reverse (l : List ChatMessage) :
    totalImages l.reverse = totalImages l := by
  rw [totalImages, totalImages, List.map_reverse, List.sum_reverse]

theorem keepLastImage_le_one (l : List ChatMessage) :
    totalImages (keepLastImage l) ≤ 1 := by
  rw [keepLastImage, totalImages_reverse]
  exact keepLastImageAux_false_count l.reverse

theorem keepLastImage_id (l : List ChatMessage) (h : totalImages l ≤ 1) :
    keepLastImage l = l := by
  rw [keepLastImage, keepLastImageAux_le_one_id l.reverse (by rwa [totalImages_reverse]),
    List.reverse_reverse]



theorem countP_filter_le (p q : ContentPart → Bool) (l : List ContentPart) :
    (l.filter q).countP p ≤ l.countP p := by
  induction l with
  | nil => simp
  | cons a rest ih =>
    by_cases hq : q a
    · rw [List.filter_cons_of_pos hq, List.countP_cons, List.countP_cons]
      omega
    · rw [List.filter_cons_of_neg hq, List.countP_cons]
      omega

theorem cleanContent_images_le (c c2 : MessageContent) (h : cleanContent c = some c2) :
    contentImages c2 ≤ contentImages c := by
  cases c with
  | str s =>
    rw [cleanContent] at h
    by_cases hz : (strTrim s).length = 0
    · rw [if_pos hz] at h; cases h
    · rw [if_neg hz] at h
      cases h
      simp [contentImages]
  | parts ps =>
    rw [cleanContent] at h
    by_cases hz : ps.filter keepPart = []
    · simp only [hz, if_pos] at h; cases h
    · simp only [hz, if_neg, not_false_iff, Option.some.injEq] at h
      subst h
      simp only [contentImages]
      exact countP_filter_le _ _ ps
  | nullContent => rw [cleanContent] at h; cases h

theorem toParts_images (c : MessageContent) :
    (toParts c).countP isImagePart = contentImages c := by
  cases c <;> simp [toParts, contentImages, List.countP_cons, isImagePart]

theorem contentImages_str (s : String) : contentImages (.str s) = 0 := rfl

theorem totalImages_nil : totalImages [] = 0 := rfl

theorem contentImages_merge (a b : MessageContent) :
    contentImages (.parts (toParts a ++ toParts b)) = contentImages a + contentImages b := by
  simp [contentImages, List.countP_append, toParts_images]

theorem mergeSameRolesAux_images (l : List ChatMessage) :
    ∀ acc, totalImages (mergeSameRolesAux acc l) ≤ totalImages acc + totalImages l := by
  induction l with
  | nil => intro acc; simp [mergeSameRolesAux, totalImages]
  | cons m rest ih =>
    intro acc
    rw [mergeSameRolesAux, totalImages_cons]
    rcases hcc : cleanContent m.content with - | c
    · simp only [hcc]
      have := ih acc
      omega
    · simp only [hcc]
      have himg : contentImages c ≤ contentImages m.content := cleanContent_images_le _ _ hcc
      cases acc with
      | nil =>
        have := ih [⟨m.role, c⟩]
        rw [totalImages_cons] at this
        simp only [totalImages, List.map_nil, List.sum_nil] at this ⊢
        omega
      | cons lastMsg accRest =>
        by_cases hrole : lastMsg.role = m.role
        · simp only [if_pos hrole]
          have := ih (⟨lastMsg.role, .parts (toParts lastMsg.content ++ toParts c)⟩ :: accRest)
          rw [totalImages_cons, contentImages_merge] at this
          rw [totalImages_cons]
          omega
        · simp only [if_neg hrole]
          have := ih (⟨m.role, c⟩ :: lastMsg :: accRest)
          rw [totalImages_cons, totalImages_cons] at this
          dsimp only at this
          rw [totalImages_cons]
          omega

theorem mergeSameRoles_images (l : List ChatMessage) :
    totalImages (mergeSameRoles l) ≤ totalImages l := by
  rw [mergeSameRoles, totalImages_reverse]
  have := mergeSameRolesAux_images l []
  simpa [totalImages] using this

theorem ensureAlternatingAux_images (l : List ChatMessage) :
    ∀ acc e, totalImages (ensureAlternatingAux acc e l) ≤ totalImages acc + totalImages l := by
  induction l with
  | nil => intro acc e; simp [ensureAlternatingAux, totalImages]
  | cons m rest ih =>
    intro acc e
    simp only [ensureAlternatingAux]
    rw [totalImages_cons]
    by_cases hme : m.role = e
    · simp only [if_pos hme]
      have := ih (m :: acc) (if e = "user" then "assistant" else "user")
      rw [totalImages_cons] at this
      omega
    · simp only [if_neg hme]
      by_cases heu : e = "user"
      · simp only [if_pos heu]
        have := ih (m :: ⟨"user", .str "Continue."⟩ :: acc) "user"
        rw [totalImages_cons, totalImages_cons] at this
        dsimp only at this
        rw [contentImages_str] at this
        omega
      · simp only [if_neg heu]
        cases acc with
        | nil =>
          dsimp only
          have := ih (m :: ⟨"assistant", .str "I will help you with that."⟩ :: []) "assistant"
          rw [totalImages_cons, totalImages_cons] at this
          dsimp only at this
          rw [contentImages_str, totalImages_nil] at this
          rw [totalImages_nil]
          omega
        | cons lastMsg accRest =>
          dsimp only
          by_cases hlr : lastMsg.role = "user"
          · simp only [if_pos hlr]
            have := ih (⟨lastMsg.role, .parts (toParts lastMsg.content ++ toParts m.content)⟩ :: accRest) e
            rw [totalImages_cons, contentImages_merge] at this
            rw [totalImages_cons]
            omega
          · simp only [if_neg hlr]
            have := ih (m :: ⟨"assistant", .str "I will help you with that."⟩ :: lastMsg :: accRest) "assistant"
            rw [totalImages_cons, totalImages_cons, totalImages_cons] at this
            dsimp only at this
            rw [contentImages_str] at this
            rw [totalImages_cons]
            omega

theorem ensureAlternating_images (l : List ChatMessage) :
    totalImages (ensureAlternating l) ≤ totalImages l := by
  rw [ensureAlternating, totalImages_reverse]
  have := ensureAlternatingAux_images l [] "user"
  simpa [totalImages] using this

theorem totalImages_append (l1 l2 : List ChatMessage) :
    totalImages (l1 ++ l2) = totalImages l1 + totalImages l2 := by
  rw [totalImages, totalImages, totalImages, List.map_append, List.sum_append]

theorem ensureUserEnds_images (l : List ChatMessage) :
    totalImages (ensureUserEnds l) ≤ totalImages l := by
  cases l with
  | nil => simp [ensureUserEnds, totalImages, contentImages]
  | cons first rest =>
    rw [ensureUserEnds]
    by_cases hfr : first.role = "user"
    · simp only [hfr, ne_eq, not_true_eq_false, if_false]
      rcases hcase : (first :: rest).getLast? with - | lastMsg
      · exact le_refl _
      · by_cases hlr : lastMsg.role = "user"
        · simp only [hlr, ne_eq, not_true_eq_false, if_false]
          exact le_refl _
        · simp only [ne_eq, hlr, not_false_iff, if_true, totalImages_append]
          simp [totalImages, contentImages]
    · simp only [ne_eq, hfr, not_false_iff, if_true]
      rcases hcase : ((⟨"user", .str "Starting interaction."⟩ : ChatMessage) :: first :: rest).getLast? with - | lastMsg
      · rw [totalImages_cons]
        simp [contentImages]
      · by_cases hlr : lastMsg.role = "user"
        · simp only [hlr, ne_eq, not_true_eq_false, if_false]
          rw [totalImages_cons]
          simp [contentImages]
        · simp only [ne_eq, hlr, not_false_iff, if_true, totalImages_append, totalImages_cons]
          simp [totalImages, contentImages]

theorem totalImages_geminiRepair_le_one (msgs : List ChatMessage) :
    totalImages (geminiRepair msgs) ≤ 1 := by
  rw [geminiRepair]
  calc totalImages (ensureUserEnds (ensureAlternating (mergeSameRoles (keepLastImage (mapSystemToUser msgs)))))
      ≤ totalImages (ensureAlternating (mergeSameRoles (keepLastImage (mapSystemToUser msgs)))) :=
        ensureUserEnds_images _
    _ ≤ totalImages (mergeSameRoles (keepLastImage (mapSystemToUser msgs))) :=
        ensureAlternating_images _
    _ ≤ totalImages (keepLastImage (mapSystemToUser msgs)) := mergeSameRoles_images _
    _ ≤ 1 := keepLastImage_le_one _



/-- C7 counterexample: the repair is not idempotent on a message with
an exotic role.  A single tool-role message is repaired to three
messages (nudge, tool message, closing user message); a second pass
merges them into one user message. -/
theorem gemini_repair_idempotent_cex :
    geminiRepair (geminiRepair [⟨"tool", .str "x"⟩]) ≠ geminiRepair [⟨"tool", .str "x"⟩] := by
  decide

/-- C7 (amended): the Gemini repair transformation is idempotent on
every message list whose roles are user, assistant or system — the
roles the message formatter can produce. -/
theorem gemini_repair_idempotent (msgs : List ChatMessage)
    (hroles : ∀ m ∈ msgs, m.role = "user" ∨ m.role = "assistant" ∨ m.role = "system") :
    geminiRepair (geminiRepair msgs) = geminiRepair msgs := by
  obtain ⟨-, hchain, hhead, hlast⟩ := geminiRepair_props msgs
  have hroleOk := geminiRepair_roleOk msgs hroles
  have hclean := geminiRepair_clean msgs
  have himg := totalImages_geminiRepair_le_one msgs
  have h0 : mapSystemToUser (geminiRepair msgs) = geminiRepair msgs :=
    mapSystemToUser_id _ (fun m hm => by
      rcases hroleOk m hm with h | h <;> rw [h] <;> decide)
  have h1 : keepLastImage (geminiRepair msgs) = geminiRepair msgs := keepLastImage_id _ himg
  have h2 : mergeSameRoles (geminiRepair msgs) = geminiRepair msgs :=
    mergeSameRoles_id _ hclean hchain
  have halt : altFrom "user" (geminiRepair msgs) :=
    altFrom_of_chain _ "user" hroleOk hchain (fun x hx => by
      rw [Option.mem_def] at hx
      rw [hx] at hhead
      simpa using hhead)
  have h3 : ensureAlternating (geminiRepair msgs) = geminiRepair msgs :=
    ensureAlternating_id _ halt
  have h4 : ensureUserEnds (geminiRepair msgs) = geminiRepair msgs :=
    ensureUserEnds_id _ hhead hlast
  calc geminiRepair (geminiRepair msgs)
      = ensureUserEnds (ensureAlternating (mergeSameRoles
          (keepLastImage (mapSystemToUser (geminiRepair msgs))))) := rfl
    _ = geminiRepair msgs := by rw [h0, h1, h2, h3, h4]

/-- Witness for C7: a plain user message is a fixed point after one
repair. -/
theorem gemini_repair_idempotent_witness :
    geminiRepair (geminiRepair [⟨"user", .str "hi"⟩]) = geminiRepair [⟨"user", .str "hi"⟩] :=
  gemini_repair_idempotent [⟨"user", .str "hi"⟩] (by decide)



/-! ### Conversation formatting (`convertToOpenAIMessages`, utils.ts) -/

/-- Fuel-based split of a character list on a non-empty separator,
matching the JavaScript string split. -/
def splitOnListAux (sep : List Char) : ℕ → List Char → List (List Char)
  | 0, l => [l]
  | fuel + 1, l =>
    if charsPre sep l ∧ sep ≠ [] then
      [] :: splitOnListAux sep fuel (l.drop sep.length)
    else match l with
      | [] => [[]]
      | c :: cs =>
        match splitOnListAux sep fuel cs with
        | [] => [[c]]
        | r :: rs => (c :: r) :: rs

/-- The JavaScript string split on a non-empty separator. -/
def splitOnStr (sep s : String) : List String :=
  (splitOnListAux sep.data (s.data.length + 1) s.data).map (fun l => ⟨l⟩)

/-- The number of placeholder occurrences in one value, as counted by
the global regular-expression match of the source. -/
def placeholderCount (value : String) : ℕ :=
  (splitOnStr IMAGE_PLACEHOLDER value).length - 1

/-- Build the typed content parts of one conversation turn: split
parts become text parts; each placeholder boundary consumes the next
image by occurrence order, except that a single retained image goes
only to the last placeholder and earlier placeholders get an
explanatory text stand-in. Returns the parts and the updated global
placeholder index. -/
def buildContentParts (images : List String) (totalPH : ℕ) (index : ℕ) :
    List String → ℕ → ℕ → List ContentPart × ℕ
  | [], _, phIdx => ([], phIdx)
  | [p], _, phIdx => (if p ≠ "" then [ContentPart.text p] else [], phIdx)
  | p :: q :: rest, partIdx, phIdx =>
    let textPart : List ContentPart := if p ≠ "" then [ContentPart.text p] else []
    let phIdx2 := phIdx + 1
    let imageToUse : Option String :=
      if images.length = 1 then (if phIdx2 = totalPH then images.head? else none)
      else images.get? (phIdx2 - 1)
    let phPart : List ContentPart :=
      match imageToUse with
      | some img =>
        if img = "" then
          [ContentPart.text (if index = 0 ∧ partIdx = 0 then "Analyzing screen." else "[Image omitted]")]
        else [ContentPart.imageUrl ("data:image/png;base64," ++ img)]
      | none =>
        [ContentPart.text (if index = 0 ∧ partIdx = 0 then "Analyzing screen." else "[Image omitted]")]
    let (restParts, phIdx3) := buildContentParts images totalPH index (q :: rest) (partIdx + 1) phIdx2
    (textPart ++ phPart ++ restParts, phIdx3)

/-- The per-conversation loop of `convertToOpenAIMessages`.  The
output accumulator is kept in reverse so the most recent message is at
its head; `index` is the conversation index and `phIdx` the running
placeholder index. -/
def convertLoop (images : List String) (totalPH : ℕ) :
    List Message → ℕ → ℕ → List ChatMessage → List ChatMessage
  | [], _, _, acc => acc
  | conv :: rest, index, phIdx, acc =>
    let role := if conv.«from» = "human" then "user" else "assistant"
    let acc1 := if acc = [] ∧ role = "assistant"
      then [(⟨"user", .str "Starting interaction."⟩ : ChatMessage)] else acc
    let parts := splitOnStr IMAGE_PLACEHOLDER conv.value
    let built := buildContentParts images totalPH index parts 0 phIdx
    let contentParts :=
      if built.1 = [] then [ContentPart.text "Continue."]
      else match built.1 with
        | [ContentPart.imageUrl u] =>
          [ContentPart.text "Analyze this screen and provide the next action.",
           ContentPart.imageUrl u]
        | other => other
    let filtered := contentParts.filter (fun p => match p with
      | .text t => (strTrim t).length != 0
      | _ => true)
    let acc2 :=
      match acc1 with
      | lastMessage :: accRest =>
        if lastMessage.role = role then
          match lastMessage.content with
          | .parts ps => (⟨lastMessage.role, .parts (ps ++ filtered)⟩ : ChatMessage) :: accRest
          | .str s => (⟨lastMessage.role, .parts (ContentPart.text s :: filtered)⟩ : ChatMessage) :: accRest
          | .nullContent => (⟨lastMessage.role, .parts (ContentPart.text "" :: filtered)⟩ : ChatMessage) :: accRest
        else
          (⟨role, match filtered with
            | [ContentPart.text t] => MessageContent.str t
            | other => MessageContent.parts other⟩ : ChatMessage) :: acc1
      | [] =>
        [(⟨role, match filtered with
          | [ContentPart.text t] => MessageContent.str t
          | other => MessageContent.parts other⟩ : ChatMessage)]
    convertLoop images totalPH rest (index + 1) built.2 acc2

/-- The separator the final cleanup inserts between two merged text
parts. -/
def jsSeparator (a b : String) : String :=
  if strEndsWith a "\n" || strStartsWith b "\n" then "" else "\n"

/-- Merge consecutive text parts, accumulating in reverse. -/
def cleanupParts (acc : List ContentPart) : List ContentPart → List ContentPart
  | [] => acc.reverse
  | p :: rest =>
    match acc, p with
    | .text a :: accRest, .text b =>
      cleanupParts (.text (a ++ jsSeparator a b ++ b) :: accRest) rest
    | _, _ => cleanupParts (p :: acc) rest

/-- The final cleanup of one message: merge adjacent text parts and
collapse a single remaining text part back to a bare string. -/
def finalCleanup (m : ChatMessage) : ChatMessage :=
  match m.content with
  | .parts ps =>
    match cleanupParts [] ps with
    | [ContentPart.text t] => ⟨m.role, .str t⟩
    | merged => ⟨m.role, .parts merged⟩
  | _ => m

/-- `convertToOpenAIMessages` from utils.ts. -/
def convertToOpenAIMessages (conversations : List Message) (images : List String) :
    List ChatMessage :=
  let totalPH := (conversations.map (fun c => placeholderCount c.value)).sum
  ((convertLoop images totalPH conversations 0 0 []).reverse).map finalCleanup

/-! ### The stateful Responses-API step (Model.ts lines 347-462) -/

/-- `convertToResponseApiInput` from utils.ts: image parts of
non-empty content arrays become input-image parts. -/
def convertToResponseApiInput (messages : List ChatMessage) : List ChatMessage :=
  messages.map (fun m =>
    match m.content with
    | .parts ps =>
      if ps.length > 0 then
        ⟨m.role, .parts (ps.map (fun p => match p with
          | .imageUrl u => if u ≠ "" then ContentPart.inputImage u else ContentPart.imageUrl u
          | q => q))⟩
      else m
    | _ => m)

/-- `isMessageImage` from utils.ts: a user message whose content array
has an image part with a truthy url. -/
def isMessageImage (m : ChatMessage) : Bool :=
  m.role = "user" &&
  (match m.content with
   | .parts ps => ps.any (fun p => match p with
      | .imageUrl u => u ≠ ""
      | .inputImage u => u ≠ ""
      | _ => false)
   | _ => false)

/-- JavaScript findIndex: the index of the first match, or -1. -/
def findIndexJs {α : Type} (p : α → Bool) (l : List α) : ℤ :=
  match l.findIdx? p with
  | some i => (i : ℤ)
  | none => -1

/-- JavaScript findLastIndex: the index of the last match, or -1. -/
def findLastIndexJs {α : Type} (p : α → Bool) (l : List α) : ℤ :=
  match l.reverse.findIdx? p with
  | some i => ((l.length : ℤ) - 1 - (i : ℤ))
  | none => -1

/-- The head-image context of the model instance: the index of the
first image-bearing message and the response ids recorded while it was
the most recent image. -/
structure HeadImageContext where
  messageIndex : ℤ
  responseIds : List String
deriving DecidableEq

/-- What one Responses-API turn produces: the upstream deletion calls
issued (in order), the new head-image context, and the final response
id. -/
structure ResponsesTurnResult where
  deletions : List String
  state : Option HeadImageContext
  responseId : Option String
deriving DecidableEq

/-- The create loop (Model.ts lines 391-455): each input is sent in
order; the oracle supplies the id the upstream returns for each
create call; when the input is an image message and the id is truthy,
the id is appended to the context keyed to the current head-image
index. -/
def responsesLoop (headImageMessageIndex : ℤ) :
    List ChatMessage → List (Option String) → Option HeadImageContext → Option String →
    Option HeadImageContext × Option String
  | [], _, st, rid => (st, rid)
  | input :: restInputs, oracle, st, _ =>
    match (oracle.head?).getD none with
    | some r =>
      if r ≠ "" ∧ isMessageImage input then
        responsesLoop headImageMessageIndex restInputs oracle.tail
          (some ⟨headImageMessageIndex,
            (match st with | some ctx => ctx.responseIds | none => []) ++ [r]⟩)
          (some r)
      else responsesLoop headImageMessageIndex restInputs oracle.tail st (some r)
    | none => responsesLoop headImageMessageIndex restInputs oracle.tail st none

/-- One Responses-API turn of `invokeModelProvider`: slice the
incremental inputs after the last assistant message, and if the
head-image position has slid while response ids are pending, shift the
oldest id and delete it upstream before the create loop. -/
def responsesApiTurn (state : Option HeadImageContext) (messages : List ChatMessage)
    (previousResponseId : Option String) (createIds : List (Option String)) :
    ResponsesTurnResult :=
  let lastAssistantIndex := findLastIndexJs (fun m => m.role = "assistant") messages
  let inputs := convertToResponseApiInput
    (if lastAssistantIndex > -1 then messages.drop (lastAssistantIndex + 1).toNat else messages)
  let headImageMessageIndex := findIndexJs isMessageImage messages
  let shifted :=
    match state with
    | some ctx =>
      if ctx.responseIds ≠ [] ∧ ctx.messageIndex ≠ headImageMessageIndex then
        match ctx.responseIds with
        | headId :: restIds =>
          ((if headId ≠ "" then [headId] else []), some (⟨ctx.messageIndex, restIds⟩ : HeadImageContext))
        | [] => (([] : List String), some ctx)
      else (([] : List String), some ctx)
    | none => (([] : List String), none)
  let looped := responsesLoop headImageMessageIndex inputs createIds shifted.2 previousResponseId
  ⟨shifted.1, looped.1, looped.2⟩

/-- The three-turn scenario of the claim: a stateful session with a
maximum of one retained image, submitting images A, B and C. -/
def scenarioConvs1 : List Message := [⟨"human", "SYS\n<image>"⟩]

/-- Turn 2 conversation: the assistant replied and a new screenshot
turn arrived; with the image budget at one, only image B remains. -/
def scenarioConvs2 : List Message :=
  [⟨"human", "SYS\n<image>"⟩, ⟨"gpt", "act1"⟩, ⟨"human", "<image>"⟩]

/-- Turn 3 conversation, now carrying only image C. -/
def scenarioConvs3 : List Message :=
  [⟨"human", "SYS\n<image>"⟩, ⟨"gpt", "act1"⟩, ⟨"human", "<image>"⟩,
   ⟨"gpt", "act2"⟩, ⟨"human", "<image>"⟩]

/-- Turn 1 of the scenario: the upstream returns id rA. -/
def scenarioTurn1 : ResponsesTurnResult :=
  responsesApiTurn none (convertToOpenAIMessages scenarioConvs1 ["A"]) none [some "rA"]

/-- Turn 2: the upstream returns id rB. -/
def scenarioTurn2 : ResponsesTurnResult :=
  responsesApiTurn scenarioTurn1.state (convertToOpenAIMessages scenarioConvs2 ["B"])
    scenarioTurn1.responseId [some "rB"]

/-- Turn 3: the upstream returns id rC. -/
def scenarioTurn3 : ResponsesTurnResult :=
  responsesApiTurn scenarioTurn2.state (convertToOpenAIMessages scenarioConvs3 ["C"])
    scenarioTurn2.responseId [some "rC"]


/-- C4 counterexample: in the stateful session with images A, B, C
across three turns and a maximum of one retained image, the engine
issues TWO upstream deletion calls by the end of turn 3 (first for the
id recorded for the turn of image A, then for the id of image B), not
exactly one. -/
theorem responses_deletion_count_cex :
    scenarioTurn1.deletions ++ scenarioTurn2.deletions ++ scenarioTurn3.deletions =
      ["rA", "rB"] ∧
    (scenarioTurn1.deletions ++ scenarioTurn2.deletions ++ scenarioTurn3.deletions).length ≠ 1 := by
  decide

/-- C4 (amended): each slide of the image window triggers exactly one
deletion of the oldest recorded id — none in turn 1, the id of image A
in turn 2, the id of image B in turn 3 — and after turn 3 the
head-image context holds exactly the identifier from the latest
submission of image C, keyed to the image message position. -/
theorem responses_head_image_eviction :
    scenarioTurn1.deletions = [] ∧
    scenarioTurn2.deletions = ["rA"] ∧
    scenarioTurn3.deletions = ["rB"] ∧
    scenarioTurn3.state = some ⟨4, ["rC"]⟩ ∧
    scenarioTurn3.responseId = some "rC" := by
  decide

end UITars
